import Mathlib

/-!
Verification of the dlgfy_api URL-shortening service (Go, gofiber + mongo).

The repository contains two concatenated historical variants of `main.go`
plus one unnamed file (part_000).  The differences that matter here:

* the `main.go` variant normalizes the URL inline in the POST handler
  (defaulting the scheme to "http" only when it is empty) and has no
  liveness check, while the `part_000` variant normalizes through
  `assertProtocol` (forcing "https" whenever the scheme is neither "http"
  nor "https") and then requires `isValidURL` (an `http.Get`) to succeed;
* the `main.go` variant derives the rate-limiter key as
  `strings.Join(c.IPs(), "")`.

Strings are modelled as `List Char`.  Machine integers do not overflow on
any path modelled here (lengths are tiny), so `Nat` is used directly.
Time is modelled in seconds as `Nat`.
-/

namespace Dlgfy

/-! ## Random slug generation

`SLUG_ALPHABET` is the 64-rune alphabet from the source.  The random source
`crypto/rand.Reader` is abstracted as a stream of outcomes, one per call of
`rand.Int(rand.Reader, big.NewInt(64))`: `some k` models a successful read
producing the uniform value `k ∈ [0, 64)`, and `none` models a read error.
-/

def SLUG_ALPHABET : List Char :=
  "abcdefghijklmnopqrstuvwxyzABCDEFGHIJKLMNOPQRSTUVWXYZ1234567890_-".toList

/-- Go panics modelled on the paths reached by this program. -/
inductive GoPanic where
  | nilDeref : GoPanic
deriving DecidableEq

instance {ε α : Type} [DecidableEq ε] [DecidableEq α] : DecidableEq (Except ε α) :=
  fun x y =>
    match x, y with
    | .ok a, .ok b =>
      if h : a = b then .isTrue (by rw [h]) else .isFalse (by intro hh; cases hh; exact h rfl)
    | .error a, .error b =>
      if h : a = b then .isTrue (by rw [h]) else .isFalse (by intro hh; cases hh; exact h rfl)
    | .ok _, .error _ => .isFalse (by intro hh; cases hh)
    | .error _, .ok _ => .isFalse (by intro hh; cases hh)

/-- Models `crypto/rand.Int(rand.Reader, big.NewInt(64))`.  Per the
`crypto/rand` source, on a reader error `Int` returns `(nil, err)`; on
success it returns a value uniform in `[0, 64)` with a nil error.  The
first component models the returned `*big.Int` pointer (`none` = nil), the
second models `err != nil`. -/
def randInt64 (outcome : Option (Fin 64)) : Option (Fin 64) × Bool :=
  (outcome, outcome.isNone)

/-- Models `(*big.Int).Int64()`: the method reads the receiver's fields, so
calling it on a nil pointer is a nil-pointer dereference, which panics. -/
def bigIntInt64 : Option (Fin 64) → Except GoPanic (Fin 64)
  | none => .error .nilDeref
  | some k => .ok k

/-- One character of `generateRandomString`: the source discards the error
component of `rand.Int` (`randomIndex, _ := rand.Int(...)`) and indexes
`SLUG_ALPHABET` with `randomIndex.Int64()`. -/
def slugChar (outcome : Option (Fin 64)) : Except GoPanic Char :=
  match bigIntInt64 (randInt64 outcome).1 with
  | .error e => .error e
  | .ok k => .ok (SLUG_ALPHABET.get (Fin.cast (by decide) k))

/-- The loop of `generateRandomString`, filling positions `i, i+1, ...`
while `n` positions remain.  A panic at any position aborts the whole
call. -/
def grsFrom (src : Nat → Option (Fin 64)) : Nat → Nat → Except GoPanic (List Char)
  | _, 0 => .ok []
  | i, n + 1 =>
    match slugChar (src i) with
    | .error e => .error e
    | .ok c =>
      match grsFrom src (i + 1) n with
      | .error e => .error e
      | .ok rest => .ok (c :: rest)

/-- Models `generateRandomString(length)` from the source, over an abstract
random source. -/
def generateRandomStringGo (length : Nat) (src : Nat → Option (Fin 64)) :
    Except GoPanic (List Char) :=
  grsFrom src 0 length

/-- Result of `FindOne(...).Decode(&result)` on the slug collection:
`found` models a nil error (a document with that slug was decoded);
`errNoDocuments` models `mongo.ErrNoDocuments`; `errOther` models any other
(transport, decoding, ...) error.  The source only ever compares the error
against nil. -/
inductive LookupResult where
  | found : LookupResult
  | errNoDocuments : LookupResult
  | errOther : LookupResult
deriving DecidableEq

/-- The `for err == nil` loop of `generateUniqueSlug`, fuel-indexed.  The
loop body repeats the lookup of the SAME string `s` — the source never
regenerates the candidate inside the loop.  `none` means the fuel ran out
with every lookup still finding a document, i.e. the loop has not
terminated within `fuel` further lookups. -/
def slugLoop (lookup : List Char → LookupResult) (s : List Char) : Nat → Option (List Char)
  | 0 => none
  | fuel + 1 =>
    match lookup s with
    | .found => slugLoop lookup s fuel
    | _ => some s

/-- Models `generateUniqueSlug`: generate one candidate with
`generateRandomString(5)`, look it up once, and enter the retry loop only
if the lookup error is nil.  `.ok none` means the loop did not terminate
within the given fuel; `.error` propagates a panic out of
`generateRandomString`. -/
def generateUniqueSlugGo (fuel : Nat) (src : Nat → Option (Fin 64))
    (lookup : List Char → LookupResult) : Except GoPanic (Option (List Char)) :=
  match generateRandomStringGo 5 src with
  | .error e => .error e
  | .ok s =>
    match lookup s with
    | .found => .ok (slugLoop lookup s fuel)
    | _ => .ok (some s)

/-! ## Rate-limiter key (main.go variant) -/

/-- Models `strings.Join(elems, sep)`. -/
def stringsJoin (elems : List (List Char)) (sep : List Char) : List Char :=
  match elems with
  | [] => []
  | x :: rest =>
    match rest with
    | [] => x
    | _ => x ++ sep ++ stringsJoin rest sep

/-- Models the `KeyGenerator` of the limiter config in the main.go variant:
`strings.Join(c.IPs(), "")`, where `c.IPs()` is the request's IP chain. -/
def keyGeneratorMainGo (ips : List (List Char)) : List Char :=
  stringsJoin ips []

/-! ## Model of `net/url` (the fragment of it this program exercises)

The handlers call `url.Parse` and `(*url.URL).String()`.  The model below
follows the `net/url` source (`Parse`, `getScheme`, the query/fragment
cuts, the authority split, and `URL.String`) restricted to URLs whose
components contain no percent-escapes and no characters that Go would
percent-escape on output, no userinfo, and no port or IPv6 bracket in the
host.  On that restricted domain Go performs no escaping or unescaping, so
components can be carried verbatim; inputs outside the domain are rejected
(`none`) by the model, while Go would accept some of them.  All
counterexamples below lie inside the domain.

Character classes are expressed through `Char.toNat` (ASCII codes). -/

/-- ASCII control characters, as in `net/url.stringContainsCTLByte`. -/
def ctlB (c : Char) : Bool := c.toNat < 32 || c.toNat == 127

def alphaB (c : Char) : Bool :=
  (97 ≤ c.toNat && c.toNat ≤ 122) || (65 ≤ c.toNat && c.toNat ≤ 90)

def digitB (c : Char) : Bool := 48 ≤ c.toNat && c.toNat ≤ 57

/-- Unreserved URL characters: letters, digits, `.` `-` `_` `~`.  Go never
escapes these in any component. -/
def urlcB (c : Char) : Bool :=
  alphaB c || digitB c || c.toNat == 46 || c.toNat == 45 || c.toNat == 95 ||
    c.toNat == 126

/-- Characters the model accepts in a host: no `/ : @ [ ]` so there is no
port, userinfo or IPv6 form, and Go's `escape(host, encodeHost)` is the
identity. -/
def hostCharB (c : Char) : Bool := urlcB c

/-- Characters the model accepts in a path: unreserved plus `/`. -/
def pathCharB (c : Char) : Bool := urlcB c || c.toNat == 47

/-- Characters the model accepts in an opaque component (`scheme:foo`):
unreserved plus `/ : @`, but never `?` or `#` (those are cut earlier). -/
def opaqCharB (c : Char) : Bool :=
  urlcB c || c.toNat == 47 || c.toNat == 58 || c.toNat == 64

/-- Characters the model accepts in a fragment: those Go's
`encodeFragment` leaves unescaped (restricted to the ones used here). -/
def fragCharB (c : Char) : Bool :=
  urlcB c || c.toNat == 47 || c.toNat == 58 || c.toNat == 64 ||
    c.toNat == 63 || c.toNat == 61 || c.toNat == 38

/-- Scheme characters after the first: letters, digits, `+ - .`
(from `getScheme`). -/
def schemeCharB (c : Char) : Bool :=
  alphaB c || digitB c || c.toNat == 43 || c.toNat == 45 || c.toNat == 46

/-- ASCII lower-casing, as `strings.ToLower` acts on scheme characters. -/
def lowerChar (c : Char) : Char :=
  if 65 ≤ c.toNat ∧ c.toNat ≤ 90 then Char.ofNat (c.toNat + 32) else c

/-- Models `split(s, sep, true)` from `net/url`: cut at the first
occurrence of `c`, dropping it; if `c` does not occur, the second component
is empty. -/
def cutFirst (c : Char) : List Char → List Char × List Char
  | [] => ([], [])
  | a :: t =>
    if a = c then ([], t)
    else
      let r := cutFirst c t
      (a :: r.1, r.2)

/-- The scan inside `getScheme` after an initial letter: consume scheme
characters up to a `:`.  `none` means the string ended, or an invalid
character appeared, before any `:` — in Go, "no valid scheme". -/
def schemeScan : List Char → Option (List Char × List Char)
  | [] => none
  | c :: t =>
    if c = ':' then some ([], t)
    else if schemeCharB c then
      match schemeScan t with
      | some (pre, post) => some (c :: pre, post)
      | none => none
    else none

/-- Models `getScheme`: `some ([], s)` is Go's "no scheme" result,
`none` is the `missing protocol scheme` error (a leading `:`). -/
def getScheme (s : List Char) : Option (List Char × List Char) :=
  match s with
  | [] => some ([], [])
  | c :: t =>
    if c = ':' then none
    else if alphaB c then
      match schemeScan t with
      | some (pre, post) => some (c :: pre, post)
      | none => some ([], s)
    else some ([], s)

/-- Models the query handling in `url.parse`: if `rest` ends in `?` and
contains no other `?`, set `ForceQuery` and strip it; otherwise cut at the
first `?`.  Returns `(rest without query, forceQuery, rawQuery)`. -/
def queryCut (rest : List Char) : List Char × Bool × List Char :=
  if rest.getLast? = some '?' ∧ ¬ rest.dropLast.any (fun c => c = '?') then
    (rest.dropLast, true, [])
  else
    let r := cutFirst '?' rest
    (r.1, false, r.2)

/-- Models Go's `url.URL` restricted to the fields this program can
produce.  `opaq` models `URL.Opaque`; `user` models `URL.User`
(the model never accepts userinfo, but `toStringL` renders it as the
source does). -/
structure GoURL where
  scheme : List Char
  opaq : List Char
  user : Option (List Char)
  host : List Char
  path : List Char
  omitHost : Bool
  forceQuery : Bool
  rawQuery : List Char
  fragment : List Char
deriving DecidableEq

/-- The branch structure of `url.parse` after scheme and query handling:
`//authority/path`, `/rooted-path` (with `OmitHost` when a scheme is
present), an opaque rest when a scheme is present, or a rootless path.
Returns `(opaq, host, path, omitHost)`, validating each component against
the model's character classes. -/
def parseCore (scheme : List Char) (restQ : List Char) :
    Option (List Char × List Char × List Char × Bool) :=
  if restQ.head? = some '/' then
    if restQ.tail.head? = some '/' then
      if (restQ.tail.tail.takeWhile (fun c => c ≠ '/')).all hostCharB &&
          (restQ.tail.tail.dropWhile (fun c => c ≠ '/')).all pathCharB then
        some ([], restQ.tail.tail.takeWhile (fun c => c ≠ '/'),
          restQ.tail.tail.dropWhile (fun c => c ≠ '/'), false)
      else none
    else
      if restQ.all pathCharB then some ([], [], restQ, !scheme.isEmpty)
      else none
  else
    if scheme.isEmpty then
      if restQ.all pathCharB then some ([], [], restQ, false) else none
    else
      if restQ.all opaqCharB then some (restQ, [], [], false) else none

/-- Models `url.Parse` on the restricted domain: cut the fragment, reject
control characters, extract and lower-case the scheme, handle the query,
then dispatch on the shape of the rest. -/
def parseL (s : List Char) : Option GoURL :=
  if (cutFirst '#' s).1.any ctlB then none
  else if ¬ (cutFirst '#' s).2.all fragCharB then none
  else
    match getScheme (cutFirst '#' s).1 with
    | none => none
    | some (schemeText, rest) =>
      match parseCore (schemeText.map lowerChar) (queryCut rest).1 with
      | none => none
      | some (opq, host, path, om) =>
        some ⟨schemeText.map lowerChar, opq, none, host, path, om,
              (queryCut rest).2.1, (queryCut rest).2.2, (cutFirst '#' s).2⟩

/-- The authority block of `URL.String`: written only when a scheme, host
or user is present and the host is not omitted; `//` appears whenever a
host, path or user follows. -/
def authPart (u : GoURL) : List Char :=
  if u.scheme.isEmpty && u.host.isEmpty && u.user.isNone then []
  else if u.omitHost && u.host.isEmpty && u.user.isNone then []
  else
    (if !u.host.isEmpty || !u.path.isEmpty || !u.user.isNone then ['/', '/'] else []) ++
      (match u.user with
       | some ui => ui ++ ['@']
       | none => []) ++ u.host

/-- The `/` inserted by `URL.String` between a host and a rootless path. -/
def slashFix (u : GoURL) : List Char :=
  if ¬ u.path.isEmpty ∧ u.path.head? ≠ some '/' ∧ ¬ u.host.isEmpty then ['/'] else []

/-- The `./` guard of `URL.String`: when nothing has been written yet and
the first path segment contains a `:`, `./` is prepended so the result does
not re-parse as a scheme. -/
def dotSlashFix (u : GoURL) : List Char :=
  if u.scheme.isEmpty ∧ authPart u = [] ∧
      (u.path.takeWhile (fun c => c ≠ '/')).any (fun c => c = ':') then
    ['.', '/']
  else []

/-- Models `(*url.URL).String()` on the restricted domain (components hold
no characters Go would escape, so `EscapedPath`, `escape(host, encodeHost)`
and `EscapedFragment` are the identity). -/
def toStringL (u : GoURL) : List Char :=
  (if u.scheme.isEmpty then [] else u.scheme ++ [':']) ++
    (if !u.opaq.isEmpty then u.opaq
     else authPart u ++ slashFix u ++ dotSlashFix u ++ u.path) ++
    (if u.forceQuery || !u.rawQuery.isEmpty then '?' :: u.rawQuery else []) ++
    (if u.fragment.isEmpty then [] else '#' :: u.fragment)

/-- The scheme adjustment of `assertProtocol` (part_000 variant): if the
parsed scheme is neither `http` nor `https`, set it to `https`. -/
def adjustScheme (u : GoURL) : GoURL :=
  if u.scheme ≠ "http".toList ∧ u.scheme ≠ "https".toList then
    { u with scheme := "https".toList }
  else u

/-- Models `assertProtocol` (part_000 variant): parse, force an http(s)
scheme, re-serialize; a parse failure is returned as an error (`none`). -/
def assertProtocolL (s : List Char) : Option (List Char) :=
  match parseL s with
  | none => none
  | some u => some (toStringL (adjustScheme u))

/-- Models `isValidURL` (part_000 variant): `http.Get(str)` followed by
`resp.StatusCode >= 200`.  `http.Get` fails outright — before any network
traffic — when the URL does not parse, when its scheme is neither `http`
nor `https` (`unsupported protocol scheme`), or when its host is empty
(`no Host in request URL`); otherwise reachability and the status test are
the environment's business, modelled by the oracle `net`. -/
def isValidURL (s : List Char) (net : List Char → Bool) : Bool :=
  match parseL s with
  | none => false
  | some u =>
    (u.scheme == "http".toList || u.scheme == "https".toList) &&
      !u.host.isEmpty && net s

/-! ## Persistence layer and HTTP handlers

The mongo collection is modelled as a list of records; `FindOne` on a slug
filter returns the first record whose slug matches, and `InsertOne` appends
(the model lets inserts always succeed; on a real insert failure the source
calls `log.Fatal`, killing the process, so no response is produced on that
path either way).  `createTTLIndex` only talks to the database and does not
affect any state modelled here. -/

/-- The persisted record (`SlugURLPair`): `expireAt` in seconds. -/
structure SlugURLPair where
  slug : List Char
  url : List Char
  expireAt : Nat
deriving DecidableEq

abbrev Store : Type := List SlugURLPair

/-- Models `FindOne(ctx, bson.D{{"slug", s}})` against the collection. -/
def findOneSlug (store : Store) (s : List Char) : Option SlugURLPair :=
  List.find? (fun p => p.slug == s) store

/-- The `FindOne(...).Decode` outcome `generateUniqueSlug` sees when the
collection is healthy: nil error iff a document matches. -/
def storeLookup (store : Store) (s : List Char) : LookupResult :=
  if (findOneSlug store s).isSome then .found else .errNoDocuments

/-- HTTP responses the handlers produce.  `redirect` carries the status
code (Fiber's `c.Redirect(location)` defaults to 302, `StatusFound`) and
the Location target. -/
inductive Resp where
  | okJson : SlugURLPair → Resp
  | badRequest : List Char → Resp
  | notFound : List Char → Resp
  | redirect : Nat → List Char → Resp
deriving DecidableEq

/-- Outcome of one request: a response together with the store it leaves
behind, or no response because the handler panicked or because the
`generateUniqueSlug` loop did not terminate within the modelled fuel. -/
inductive Outcome where
  | panics : Outcome
  | diverges : Outcome
  | responds : Resp → Store → Outcome
deriving DecidableEq

def bodyFieldMsg : List Char := "Body must contain a `url` field.".toList

def invalidUrlDotMsg : List Char := "Invalid URL.".toList

def invalidUrlMsg : List Char := "Invalid URL".toList

def notFoundMsg : List Char := "404: Error - Unable to find redirection URL.".toList

/-- Five days in seconds: both variants compute `expireAt` as
`time.Now().UTC().Add(time.Hour * 24 * 5)`. -/
def retentionSecs : Nat := 5 * 24 * 3600

/-- Models the POST `/createSlugURLPair` handler of the main.go variant.
`body` is the result of `c.BodyParser`: `none` when parsing the request
body failed, `some v` when it produced a `URL` struct with `Value = v`
(a JSON body without a `url` field parses successfully with `v` empty).
This variant defaults the scheme to `http` only when the parsed scheme is
empty, and has no liveness check. -/
def createHandlerMainGo (body : Option (List Char)) (fuel : Nat)
    (src : Nat → Option (Fin 64)) (now : Nat) (store : Store) : Outcome :=
  match body with
  | none => .responds (.badRequest bodyFieldMsg) store
  | some v =>
    match parseL v with
    | none => .responds (.badRequest invalidUrlDotMsg) store
    | some u =>
      let u' := if u.scheme.isEmpty then { u with scheme := "http".toList } else u
      match generateUniqueSlugGo fuel src (storeLookup store) with
      | .error _ => .panics
      | .ok none => .diverges
      | .ok (some slug) =>
        let pair : SlugURLPair := ⟨slug, toStringL u', now + retentionSecs⟩
        .responds (.okJson pair) (store ++ [pair])

/-- Models the POST `/createSlugURLPair` handler of the part_000 variant:
normalize through `assertProtocol`, then require `isValidURL`. -/
def createHandlerPart000 (body : Option (List Char)) (net : List Char → Bool)
    (fuel : Nat) (src : Nat → Option (Fin 64)) (now : Nat) (store : Store) : Outcome :=
  match body with
  | none => .responds (.badRequest bodyFieldMsg) store
  | some v =>
    match assertProtocolL v with
    | none => .responds (.badRequest invalidUrlMsg) store
    | some v' =>
      if !isValidURL v' net then .responds (.badRequest invalidUrlMsg) store
      else
        match generateUniqueSlugGo fuel src (storeLookup store) with
        | .error _ => .panics
        | .ok none => .diverges
        | .ok (some slug) =>
          let pair : SlugURLPair := ⟨slug, v', now + retentionSecs⟩
          .responds (.okJson pair) (store ++ [pair])

/-- Models the GET `/:slug` handler (identical in every variant): look the
slug up; on a hit, `c.Redirect(result.Url)` (status 302); on a miss, 404
with a plain-text message. -/
def getHandler (slugParam : List Char) (store : Store) : Resp :=
  match findOneSlug store slugParam with
  | none => .notFound notFoundMsg
  | some p => .redirect 302 p.url

/-! ## Well-formedness and canonicalization for the round-trip lemmas -/

/-- Character-class invariants every `parseL` image satisfies. -/
def CharsOK (u : GoURL) : Prop :=
  u.opaq.all opaqCharB ∧ u.host.all hostCharB ∧ u.path.all pathCharB ∧
    u.rawQuery.all (fun c => !(c == '#') && !ctlB c) ∧ u.fragment.all fragCharB

/-- Structural invariants every `parseL` image satisfies: no userinfo, an
opaque part never starts with `/` and excludes the other components,
`OmitHost` happens exactly for `scheme:/rooted-but-not-doubly-slashed`
paths, a host forces the path to be empty or rooted, and `ForceQuery`
implies an empty `RawQuery`. -/
def StructWF (u : GoURL) : Prop :=
  u.user = none ∧
    u.opaq.head? ≠ some '/' ∧
    (u.opaq ≠ [] → u.host = [] ∧ u.path = [] ∧ u.omitHost = false) ∧
    (u.omitHost = true →
      u.opaq = [] ∧ u.host = [] ∧ u.path.head? = some '/' ∧
        u.path.tail.head? ≠ some '/') ∧
    (u.host ≠ [] → u.path = [] ∨ u.path.head? = some '/') ∧
    (u.forceQuery = true → u.rawQuery = [])

/-- Full well-formedness for the round-trip lemmas: a `parseL` image whose
scheme has been forced to `http` or `https`. -/
def WF (u : GoURL) : Prop :=
  CharsOK u ∧ StructWF u ∧ (u.scheme = "http".toList ∨ u.scheme = "https".toList)

/-- The one re-serialization drift of the model: a rootless path behind an
empty authority re-parses with its first segment as the host.  `canon`
performs that shift; everywhere else re-parsing is the identity. -/
def canon (u : GoURL) : GoURL :=
  if u.opaq = [] ∧ u.host = [] ∧ u.omitHost = false ∧ u.path ≠ [] ∧
      u.path.head? ≠ some '/' then
    { u with host := u.path.takeWhile (fun c => c ≠ '/'),
             path := u.path.dropWhile (fun c => c ≠ '/') }
  else u

/-! ## Lemmas about slug generation -/

theorem slugChar_ok {o : Option (Fin 64)} {c : Char} (h : slugChar o = .ok c) :
    c ∈ SLUG_ALPHABET := by
  cases o with
  | none => exact absurd h (by simp [slugChar, randInt64, bigIntInt64])
  | some k =>
    have : c = SLUG_ALPHABET.get (Fin.cast (by decide) k) := by
      simpa [slugChar, randInt64, bigIntInt64] using h.symm
    rw [this]
    exact List.get_mem _ _ _

theorem grsFrom_ok {src : Nat → Option (Fin 64)} :
    ∀ (n i : Nat) (l : List Char), grsFrom src i n = .ok l →
      l.length = n ∧ ∀ c ∈ l, c ∈ SLUG_ALPHABET := by
  intro n
  induction n with
  | zero =>
    intro i l h
    have : l = [] := by simpa [grsFrom] using h.symm
    simp [this]
  | succ n ih =>
    intro i l h
    unfold grsFrom at h
    cases hc : slugChar (src i) with
    | error e => rw [hc] at h; cases h
    | ok c =>
      rw [hc] at h
      cases hr : grsFrom src (i + 1) n with
      | error e => rw [hr] at h; cases h
      | ok rest =>
        rw [hr] at h
        cases h
        obtain ⟨hlen, hmem⟩ := ih (i + 1) rest hr
        refine ⟨by simp [hlen], ?_⟩
        intro d hd
        rcases List.mem_cons.mp hd with h1 | h2
        · rw [h1]; exact slugChar_ok hc
        · exact hmem d h2

theorem slugLoop_some {lookup : List Char → LookupResult} {s t : List Char} :
    ∀ fuel, slugLoop lookup s fuel = some t → t = s := by
  intro fuel
  induction fuel with
  | zero => intro h; cases h
  | succ f ih =>
    intro h
    unfold slugLoop at h
    cases hl : lookup s with
    | found => rw [hl] at h; exact ih h
    | errNoDocuments => rw [hl] at h; cases h; rfl
    | errOther => rw [hl] at h; cases h; rfl

theorem slugLoop_found {lookup : List Char → LookupResult} {s : List Char}
    (h : lookup s = .found) : ∀ fuel, slugLoop lookup s fuel = none := by
  intro fuel
  induction fuel with
  | zero => rfl
  | succ f ih => rw [slugLoop, h]; exact ih

theorem slugLoop_not_found {lookup : List Char → LookupResult} {s t : List Char}
    {fuel : Nat} (h : slugLoop lookup s fuel = some t) : lookup s ≠ .found := by
  intro hf
  rw [slugLoop_found hf fuel] at h
  cases h

theorem generateUniqueSlugGo_ok {fuel : Nat} {src : Nat → Option (Fin 64)}
    {lookup : List Char → LookupResult} {t : List Char}
    (h : generateUniqueSlugGo fuel src lookup = .ok (some t)) :
    generateRandomStringGo 5 src = .ok t ∧ lookup t ≠ .found := by
  unfold generateUniqueSlugGo at h
  cases hg : generateRandomStringGo 5 src with
  | error e => simp [hg] at h
  | ok s =>
    simp only [hg] at h
    cases hl : lookup s with
    | found =>
      simp only [hl] at h
      have hs : slugLoop lookup s fuel = some t := by
        cases hx : slugLoop lookup s fuel with
        | none => simp [hx] at h
        | some x =>
          simp only [hx, Except.ok.injEq, Option.some.injEq] at h
          rw [h]
      have := slugLoop_some fuel hs
      subst this
      exact absurd hl (slugLoop_not_found hs)
    | errNoDocuments =>
      simp only [hl, Except.ok.injEq, Option.some.injEq] at h
      subst h
      exact ⟨rfl, by rw [hl]; intro hx; cases hx⟩
    | errOther =>
      simp only [hl, Except.ok.injEq, Option.some.injEq] at h
      subst h
      exact ⟨rfl, by rw [hl]; intro hx; cases hx⟩

/-! ## Claims C1, C3, C7, C9, C10 -/

/-- A store in which the first generated candidate `aaaaa` is present
(every lookup of it decodes a document) while any other slug, in
particular `bbbbb`, is absent. -/
def c1Lookup (c : List Char) : LookupResult :=
  if c = "aaaaa".toList then .found else .errNoDocuments

/-- C1: the claim says that after the lookup finds an existing record with
the candidate slug, a NEW random candidate is generated and looked up.
The source's loop body (`err = slugURLPairCollection.FindOne(...)` with
the same `s`) never regenerates the candidate, so with the first candidate
present the loop re-queries that same slug forever: for every number of
further lookups the call has produced no slug — it has not moved on to the
second random candidate `bbbbb` the claim's description would return. -/
theorem c1_loop_never_regenerates :
    ∀ fuel, generateUniqueSlugGo fuel (fun _ => some 0) c1Lookup = .ok none := by
  intro fuel
  have hgen : generateRandomStringGo 5 (fun _ => some 0) = .ok "aaaaa".toList := rfl
  have hfound : c1Lookup "aaaaa".toList = .found := rfl
  unfold generateUniqueSlugGo
  simp only [hgen, hfound, slugLoop_found hfound fuel]

/-- C3: every string `generateRandomString(5)` returns has length exactly 5
with every character drawn from the 64-symbol `SLUG_ALPHABET`, and hence so
does every slug `generateUniqueSlug` returns. -/
theorem c3_slug_length_and_alphabet (src : Nat → Option (Fin 64)) (s : List Char)
    (h : generateRandomStringGo 5 src = .ok s) :
    (s.length = 5 ∧ ∀ c ∈ s, c ∈ SLUG_ALPHABET) ∧
      ∀ (fuel : Nat) (lookup : List Char → LookupResult) (t : List Char),
        generateUniqueSlugGo fuel src lookup = .ok (some t) →
          t.length = 5 ∧ ∀ c ∈ t, c ∈ SLUG_ALPHABET := by
  refine ⟨grsFrom_ok 5 0 s h, ?_⟩
  intro fuel lookup t ht
  obtain ⟨hg, -⟩ := generateUniqueSlugGo_ok ht
  exact grsFrom_ok 5 0 t hg

theorem c3_witness :
    ("aaaaa".toList.length = 5 ∧ ∀ c ∈ "aaaaa".toList, c ∈ SLUG_ALPHABET) ∧
      ∀ (fuel : Nat) (lookup : List Char → LookupResult) (t : List Char),
        generateUniqueSlugGo fuel (fun _ => some 0) lookup = .ok (some t) →
          t.length = 5 ∧ ∀ c ∈ t, c ∈ SLUG_ALPHABET :=
  c3_slug_length_and_alphabet (fun _ => some 0) "aaaaa".toList rfl

/-- C7, corrected: when the random source errors, `crypto/rand.Int`
returns `(nil, err)`; the source discards `err` and calls `Int64()` on the
nil `*big.Int`, which dereferences a nil pointer and panics.  No
full-length string is produced and no position degrades to
`SLUG_ALPHABET[0]` — at a source that errors on every read the call
panics instead of returning `"aaaaa"`. -/
theorem c7_counterexample :
    generateRandomStringGo 5 (fun _ => none) = .error .nilDeref ∧
      Except.error GoPanic.nilDeref ≠ Except.ok (List.replicate 5 'a') :=
  ⟨rfl, by intro h; cases h⟩

theorem grsFrom_error {src : Nat → Option (Fin 64)} :
    ∀ (n start : Nat), (∃ j, j < n ∧ src (start + j) = none) →
      grsFrom src start n = .error .nilDeref := by
  intro n
  induction n with
  | zero =>
    intro start h
    obtain ⟨j, hj, -⟩ := h
    omega
  | succ n ih =>
    intro start h
    obtain ⟨j, hj, hnone⟩ := h
    cases hs : src start with
    | none =>
      unfold grsFrom
      rw [hs]
      rfl
    | some k =>
      have hj0 : j ≠ 0 := by
        intro h0
        rw [h0] at hnone
        simp at hnone
        rw [hs] at hnone
        cases hnone
      have hrec : grsFrom src (start + 1) n = .error .nilDeref := by
        refine ih (start + 1) ⟨j - 1, by omega, ?_⟩
        have : start + 1 + (j - 1) = start + j := by omega
        rw [this]
        exact hnone
      unfold grsFrom
      rw [hs, hrec]
      rfl

/-- C7, amended: a random-source error at any of the five positions makes
`generateRandomString(5)` panic with a nil-pointer dereference (aborting
the request) instead of silently contributing `SLUG_ALPHABET[0]`. -/
theorem c7_random_error_panics (src : Nat → Option (Fin 64)) (i : Nat)
    (hi : i < 5) (h : src i = none) :
    generateRandomStringGo 5 src = .error .nilDeref :=
  grsFrom_error 5 0 ⟨i, hi, by simpa using h⟩

theorem c7_witness : generateRandomStringGo 5 (fun _ => none) = .error .nilDeref :=
  c7_random_error_panics (fun _ => none) 0 (by omega) rfl

/-- C9: `generateUniqueSlug` exits its loop whenever the lookup error is
non-nil — `mongo.ErrNoDocuments` and transport or decoding failures alike —
and immediately returns the current candidate without any further lookup
(the fuel bound is irrelevant to the result).  In particular a transport
error (`errOther`) is treated exactly like an absence, so under a failing
store the returned slug may in fact already exist. -/
theorem c9_any_error_treated_as_unique (fuel : Nat) (src : Nat → Option (Fin 64))
    (lookup : List Char → LookupResult) (s : List Char)
    (hgen : generateRandomStringGo 5 src = .ok s) (herr : lookup s ≠ .found) :
    generateUniqueSlugGo fuel src lookup = .ok (some s) := by
  unfold generateUniqueSlugGo
  simp only [hgen]

theorem c9_witness :
    generateUniqueSlugGo 0 (fun _ => some 0) (fun _ => .errOther) =
      .ok (some "aaaaa".toList) :=
  c9_any_error_treated_as_unique 0 (fun _ => some 0) (fun _ => .errOther)
    "aaaaa".toList rfl (by intro h; cases h)

/-- C10: the main.go variant's limiter key is the separator-free
concatenation of the IP chain, which identifies the two distinct chains
`["1.2.3.4", "56.7.8.9"]` and `["1.2.3.45", "6.7.8.9"]` — both map to the
key `"1.2.3.456.7.8.9"`, so two different client identities share one
rate-limit quota. -/
theorem c10_key_generator_not_injective :
    keyGeneratorMainGo ["1.2.3.4".toList, "56.7.8.9".toList] =
        keyGeneratorMainGo ["1.2.3.45".toList, "6.7.8.9".toList] ∧
      ["1.2.3.4".toList, "56.7.8.9".toList] ≠ ["1.2.3.45".toList, "6.7.8.9".toList] :=
  ⟨rfl, by decide⟩

/-! ## Lemmas about the store -/

theorem storeLookup_ne_found {store : Store} {s : List Char}
    (h : storeLookup store s ≠ .found) : findOneSlug store s = none := by
  unfold storeLookup at h
  cases hf : findOneSlug store s with
  | none => rfl
  | some p => rw [hf] at h; simp at h

theorem findOneSlug_append {store : Store} {s : List Char}
    (h : findOneSlug store s = none) (p : SlugURLPair) (hp : p.slug = s) :
    findOneSlug (store ++ [p]) s = some p := by
  unfold findOneSlug at h ⊢
  rw [List.find?_append, h]
  simp [List.find?, hp]

/-! ## Claims C4, C8 -/

/-- C4: a successful creation in the part_000 variant, immediately
followed by a GET on the returned slug against the store the creation left
behind, answers a 302 redirect whose Location is exactly the normalized URL
the creation persisted.  The creation's slug was reported absent by the
store, so the appended record is the first (and only) match. -/
theorem c4_create_then_get_redirects (body : Option (List Char))
    (net : List Char → Bool) (fuel : Nat) (src : Nat → Option (Fin 64))
    (now : Nat) (store : Store) (pair : SlugURLPair) (st' : Store)
    (h : createHandlerPart000 body net fuel src now store = .responds (.okJson pair) st') :
    getHandler pair.slug st' = .redirect 302 pair.url := by
  unfold createHandlerPart000 at h
  cases body with
  | none => simp at h
  | some v =>
    cases hap : assertProtocolL v with
    | none => simp [hap] at h
    | some v' =>
      simp only [hap] at h
      cases hv : isValidURL v' net with
      | false => simp [hv] at h
      | true =>
        simp only [hv, Bool.not_true, Bool.false_eq_true, if_false] at h
        cases hg : generateUniqueSlugGo fuel src (storeLookup store) with
        | error e => simp [hg] at h
        | ok o =>
          cases o with
          | none => simp [hg] at h
          | some slug =>
            simp only [hg, Outcome.responds.injEq, Resp.okJson.injEq] at h
            obtain ⟨hpair, hst⟩ := h
            obtain ⟨-, hnf⟩ := generateUniqueSlugGo_ok hg
            have hnone : findOneSlug store slug = none := storeLookup_ne_found hnf
            subst hpair
            subst hst
            have hfind :
                findOneSlug (store ++ [(⟨slug, v', now + retentionSecs⟩ : SlugURLPair)])
                  slug = some ⟨slug, v', now + retentionSecs⟩ :=
              findOneSlug_append hnone _ rfl
            unfold getHandler
            simp only [hfind]

theorem c4_witness :
    getHandler ("aaaaa".toList)
        [⟨"aaaaa".toList, "https://example.com".toList, retentionSecs⟩] =
      .redirect 302 "https://example.com".toList := by
  have h := c4_create_then_get_redirects (some "example.com".toList)
    (fun _ => true) 0 (fun _ => some 0) 0 []
    ⟨"aaaaa".toList, "https://example.com".toList, retentionSecs⟩
    [⟨"aaaaa".toList, "https://example.com".toList, retentionSecs⟩] (by decide)
  exact h

/-- C8: a GET on a slug with no mapping in the store — never created, or
already purged by the TTL index — answers 404 with the plain-text message
and is not a redirect. -/
theorem c8_missing_slug_404 (slugParam : List Char) (store : Store)
    (h : findOneSlug store slugParam = none) :
    getHandler slugParam store = .notFound notFoundMsg ∧
      ∀ (status : Nat) (loc : List Char),
        getHandler slugParam store ≠ .redirect status loc := by
  have hg : getHandler slugParam store = .notFound notFoundMsg := by
    unfold getHandler
    simp only [h]
  exact ⟨hg, by intro status loc hx; rw [hg] at hx; cases hx⟩

theorem c8_witness :
    getHandler "zzzzz".toList [] = .notFound notFoundMsg ∧
      ∀ (status : Nat) (loc : List Char),
        getHandler "zzzzz".toList [] ≠ .redirect status loc :=
  c8_missing_slug_404 "zzzzz".toList [] rfl

/-! ## Claims C2, C5, C6: counterexamples and the C5 amendment -/

/-- C2, counterexample: in the main.go variant the scheme is defaulted only
when empty, so POST `{"url": "ftp://example.com"}` succeeds (200) and
persists a url that begins with neither `http://` nor `https://`. -/
theorem c2_counterexample :
    createHandlerMainGo (some "ftp://example.com".toList) 1 (fun _ => some 0) 0 [] =
        .responds
          (.okJson ⟨"aaaaa".toList, "ftp://example.com".toList, retentionSecs⟩)
          [⟨"aaaaa".toList, "ftp://example.com".toList, retentionSecs⟩] ∧
      "http://".toList.isPrefixOf "ftp://example.com".toList = false ∧
      "https://".toList.isPrefixOf "ftp://example.com".toList = false := by
  decide

/-- C5, counterexample: a well-formed JSON body with no `url` field parses
into `URL{Value: ""}`; in the main.go variant `url.Parse("")` succeeds, the
empty scheme is defaulted to `http`, and the handler responds 200 and
persists the mapping (with url `"http:"`) instead of responding 400 with
nothing persisted. -/
theorem c5_counterexample :
    createHandlerMainGo (some []) 1 (fun _ => some 0) 0 [] =
        .responds (.okJson ⟨"aaaaa".toList, "http:".toList, retentionSecs⟩)
          [⟨"aaaaa".toList, "http:".toList, retentionSecs⟩] ∧
      Resp.okJson ⟨"aaaaa".toList, "http:".toList, retentionSecs⟩ ≠
          .badRequest bodyFieldMsg ∧
      Resp.okJson ⟨"aaaaa".toList, "http:".toList, retentionSecs⟩ ≠
          .badRequest invalidUrlDotMsg ∧
      ([⟨"aaaaa".toList, "http:".toList, retentionSecs⟩] : Store) ≠ [] := by
  decide

/-- C5, amended: a malformed request body (one `c.BodyParser` rejects)
gets 400 with the message naming the `url` field and persists nothing, in
both variants; in the part_000 variant an unparseable url and a url
failing the liveness check likewise get 400 ("Invalid URL") with nothing
persisted, and in the main.go variant an unparseable url gets 400
("Invalid URL.") with nothing persisted.  A well-formed body lacking a
`url` field, however, is rejected only by the part_000 variant; the
main.go variant accepts it (see the counterexample). -/
theorem c5_bad_body_rejected_nothing_persisted (net : List Char → Bool)
    (fuel : Nat) (src : Nat → Option (Fin 64)) (now : Nat) (store : Store)
    (v : List Char) :
    (createHandlerMainGo none fuel src now store =
        .responds (.badRequest bodyFieldMsg) store) ∧
      (createHandlerPart000 none net fuel src now store =
        .responds (.badRequest bodyFieldMsg) store) ∧
      (parseL v = none →
        createHandlerMainGo (some v) fuel src now store =
          .responds (.badRequest invalidUrlDotMsg) store) ∧
      (parseL v = none →
        createHandlerPart000 (some v) net fuel src now store =
          .responds (.badRequest invalidUrlMsg) store) ∧
      ∀ u, parseL v = some u →
        isValidURL (toStringL (adjustScheme u)) net = false →
          createHandlerPart000 (some v) net fuel src now store =
            .responds (.badRequest invalidUrlMsg) store := by
  refine ⟨rfl, rfl, ?_, ?_, ?_⟩
  · intro hv
    unfold createHandlerMainGo
    simp only [hv]
  · intro hv
    unfold createHandlerPart000 assertProtocolL
    simp only [hv]
  · intro u hu hbad
    unfold createHandlerPart000 assertProtocolL
    simp only [hu, hbad]
    rfl

theorem c5_witness :
    (createHandlerMainGo none 1 (fun _ => some 0) 0 [] =
        .responds (.badRequest bodyFieldMsg) []) ∧
      (createHandlerPart000 none (fun _ => true) 1 (fun _ => some 0) 0 [] =
        .responds (.badRequest bodyFieldMsg) []) ∧
      (createHandlerPart000 (some "mailto:x".toList) (fun _ => true) 1
          (fun _ => some 0) 0 [] =
        .responds (.badRequest invalidUrlMsg) []) := by
  obtain ⟨h1, h2, -, -, h5⟩ :=
    c5_bad_body_rejected_nothing_persisted (fun _ => true) 1 (fun _ => some 0) 0 []
      "mailto:x".toList
  exact ⟨h1, h2, h5 ⟨"mailto".toList, "x".toList, none, [], [], false, false, [], []⟩
    (by decide) (by decide)⟩

/-- C6, counterexample: `"http://example.com#"` begins with `http://` and
parses, but `assertProtocol` re-serializes the parsed URL and `URL.String`
drops the dangling empty fragment, returning a string different from the
input — normalization of an already-`http://` URL is not always the
identity. -/
theorem c6_counterexample :
    "http://".toList.isPrefixOf "http://example.com#".toList = true ∧
      assertProtocolL "http://example.com#".toList =
        some "http://example.com".toList ∧
      "http://example.com".toList ≠ "http://example.com#".toList := by
  decide

/-! ## Character-class lemmas -/

theorem char_eq_of_toNat {c d : Char} (h : c.toNat = d.toNat) : c = d := by
  have hc := Char.ofNat_toNat c
  have hd := Char.ofNat_toNat d
  rw [← hc, ← hd, h]

theorem toNat_ne {c d : Char} (h : c.toNat ≠ d.toNat) : c ≠ d :=
  fun hc => h (by rw [hc])

theorem urlc_facts {c : Char} (h : urlcB c = true) :
    32 ≤ c.toNat ∧ c.toNat ≠ 127 ∧ c.toNat ≠ 35 ∧ c.toNat ≠ 63 ∧
      c.toNat ≠ 47 ∧ c.toNat ≠ 58 := by
  simp [urlcB, alphaB, digitB] at h
  omega

theorem hostChar_facts {c : Char} (h : hostCharB c = true) :
    ctlB c = false ∧ c ≠ '#' ∧ c ≠ '?' ∧ c ≠ '/' := by
  obtain ⟨h1, h2, h3, h4, h5, -⟩ := urlc_facts h
  refine ⟨by simp [ctlB]; omega, toNat_ne ?_, toNat_ne ?_, toNat_ne ?_⟩ <;> simpa

theorem pathChar_facts {c : Char} (h : pathCharB c = true) :
    ctlB c = false ∧ c ≠ '#' ∧ c ≠ '?' := by
  have h' : urlcB c = true ∨ c.toNat = 47 := by
    simpa [pathCharB] using h
  rcases h' with h' | h'
  · obtain ⟨-, -, h3, h4, -⟩ := urlc_facts h'
    exact ⟨(hostChar_facts h').1, toNat_ne (by simpa), toNat_ne (by simpa)⟩
  · refine ⟨by simp [ctlB]; omega, toNat_ne (by simp [h']), toNat_ne (by simp [h'])⟩

theorem pathChar_to_host {c : Char} (h : pathCharB c = true) (hne : c ≠ '/') :
    hostCharB c = true := by
  have h' : urlcB c = true ∨ c.toNat = 47 := by
    simpa [pathCharB] using h
  rcases h' with h' | h'
  · exact h'
  · exact absurd (char_eq_of_toNat (by simp [h'])) hne

theorem opaqChar_facts {c : Char} (h : opaqCharB c = true) :
    ctlB c = false ∧ c ≠ '#' ∧ c ≠ '?' := by
  have h' : ((urlcB c = true ∨ c.toNat = 47) ∨ c.toNat = 58) ∨ c.toNat = 64 := by
    simpa [opaqCharB] using h
  rcases h' with ((h' | h') | h') | h'
  · obtain ⟨-, -, h3, h4, -⟩ := urlc_facts h'
    exact ⟨(hostChar_facts h').1, toNat_ne (by simpa), toNat_ne (by simpa)⟩
  all_goals
    exact ⟨by simp [ctlB]; omega, toNat_ne (by simp [h']), toNat_ne (by simp [h'])⟩

theorem fragChar_facts {c : Char} (h : fragCharB c = true) :
    ctlB c = false ∧ c ≠ '#' := by
  have h' : (((((urlcB c = true ∨ c.toNat = 47) ∨ c.toNat = 58) ∨ c.toNat = 64) ∨
      c.toNat = 63) ∨ c.toNat = 61) ∨ c.toNat = 38 := by
    simpa [fragCharB] using h
  rcases h' with (((((h' | h') | h') | h') | h') | h') | h'
  · obtain ⟨-, -, h3, -⟩ := urlc_facts h'
    exact ⟨(hostChar_facts h').1, toNat_ne (by simpa)⟩
  all_goals
    exact ⟨by simp [ctlB]; omega, toNat_ne (by simp [h'])⟩

theorem qryChar_facts {c : Char} (h : (!(c == '#') && !ctlB c) = true) :
    ctlB c = false ∧ c ≠ '#' := by
  simp only [Bool.and_eq_true, Bool.not_eq_true', beq_eq_false_iff_ne] at h
  exact ⟨h.2, h.1⟩

/-! ## Lemmas about the list-splitting helpers -/

theorem cutFirst_of_not_mem {c : Char} : ∀ {l : List Char}, c ∉ l →
    cutFirst c l = (l, []) := by
  intro l
  induction l with
  | nil => intro _; rfl
  | cons a t ih =>
    intro h
    have ha : a ≠ c := fun hh => h (by rw [hh]; exact List.mem_cons_self _ _)
    have ht : c ∉ t := fun hh => h (List.mem_cons_of_mem _ hh)
    simp [cutFirst, ha, ih ht]

theorem cutFirst_append {c : Char} : ∀ {a : List Char} (b : List Char), c ∉ a →
    cutFirst c (a ++ c :: b) = (a, b) := by
  intro a
  induction a with
  | nil => intro b _; simp [cutFirst]
  | cons x t ih =>
    intro b h
    have hx : x ≠ c := fun hh => h (by rw [hh]; exact List.mem_cons_self _ _)
    have ht : c ∉ t := fun hh => h (List.mem_cons_of_mem _ hh)
    simp [cutFirst, hx, ih b ht]

theorem cutFirst_append_left {c : Char} : ∀ {a : List Char} (b : List Char), c ∉ a →
    cutFirst c (a ++ b) = (a ++ (cutFirst c b).1, (cutFirst c b).2) := by
  intro a
  induction a with
  | nil => intro b _; simp
  | cons x t ih =>
    intro b h
    have hx : x ≠ c := fun hh => h (by rw [hh]; exact List.mem_cons_self _ _)
    have ht : c ∉ t := fun hh => h (List.mem_cons_of_mem _ hh)
    simp [cutFirst, hx, ih b ht]

theorem cutFirst_fst_not_mem {c : Char} : ∀ {l : List Char}, c ∉ (cutFirst c l).1 := by
  intro l
  induction l with
  | nil => simp [cutFirst]
  | cons a t ih =>
    by_cases ha : a = c
    · subst ha; simp [cutFirst]
    · simp only [cutFirst, if_neg ha, List.mem_cons]
      rintro (h1 | h2)
      · exact ha h1.symm
      · exact ih h2

theorem cutFirst_all {c : Char} {p : Char → Bool} : ∀ {l : List Char},
    l.all p = true → (cutFirst c l).1.all p = true ∧ (cutFirst c l).2.all p = true := by
  intro l
  induction l with
  | nil => intro _; exact ⟨rfl, rfl⟩
  | cons a t ih =>
    intro h
    rw [List.all_cons, Bool.and_eq_true] at h
    by_cases ha : a = c
    · subst ha; simpa [cutFirst] using h.2
    · obtain ⟨ih1, ih2⟩ := ih h.2
      simp only [cutFirst, if_neg ha]
      exact ⟨by rw [List.all_cons, Bool.and_eq_true]; exact ⟨h.1, ih1⟩, ih2⟩

theorem dropLast_all {p : Char → Bool} : ∀ {l : List Char},
    l.all p = true → l.dropLast.all p = true := by
  intro l h
  rw [List.all_eq_true] at h ⊢
  intro x hx
  exact h x (List.dropLast_subset l hx)

theorem all_takeWhile {p q : Char → Bool} : ∀ {l : List Char}, l.all q = true →
    (l.takeWhile p).all q = true := by
  intro l
  induction l with
  | nil => intro _; rfl
  | cons a t ih =>
    intro h
    rw [List.all_cons, Bool.and_eq_true] at h
    rw [List.takeWhile]
    cases hp : p a with
    | true => rw [List.all_cons, Bool.and_eq_true]; exact ⟨h.1, ih h.2⟩
    | false => rfl

theorem all_dropWhile {p q : Char → Bool} : ∀ {l : List Char}, l.all q = true →
    (l.dropWhile p).all q = true := by
  intro l
  induction l with
  | nil => intro _; rfl
  | cons a t ih =>
    intro h
    rw [List.all_cons, Bool.and_eq_true] at h
    rw [List.dropWhile]
    cases hp : p a with
    | true => exact ih h.2
    | false => rw [List.all_cons, Bool.and_eq_true]; exact ⟨h.1, h.2⟩

theorem takeWhile_append_all {p : Char → Bool} : ∀ {a : List Char} (b : List Char),
    a.all p = true → (a ++ b).takeWhile p = a ++ b.takeWhile p := by
  intro a
  induction a with
  | nil => intro b _; rfl
  | cons x t ih =>
    intro b h
    rw [List.all_cons, Bool.and_eq_true] at h
    rw [List.cons_append, List.takeWhile, h.1, ih b h.2]
    rfl

theorem dropWhile_append_all {p : Char → Bool} : ∀ {a : List Char} (b : List Char),
    a.all p = true → (a ++ b).dropWhile p = b.dropWhile p := by
  intro a
  induction a with
  | nil => intro b _; rfl
  | cons x t ih =>
    intro b h
    rw [List.all_cons, Bool.and_eq_true] at h
    rw [List.cons_append, List.dropWhile, h.1]
    exact ih b h.2

theorem takeWhile_nil_of_head {p : Char → Bool} {l : List Char} {x : Char}
    (hh : l.head? = some x) (hp : p x = false) : l.takeWhile p = [] := by
  cases l with
  | nil => cases hh
  | cons a t =>
    rw [List.head?_cons, Option.some.injEq] at hh
    subst hh
    rw [List.takeWhile, hp]

theorem dropWhile_self_of_head {p : Char → Bool} {l : List Char} {x : Char}
    (hh : l.head? = some x) (hp : p x = false) : l.dropWhile p = l := by
  cases l with
  | nil => cases hh
  | cons a t =>
    rw [List.head?_cons, Option.some.injEq] at hh
    subst hh
    rw [List.dropWhile, hp]

theorem takeWhile_self_of_all {p : Char → Bool} : ∀ {l : List Char},
    l.all p = true → l.takeWhile p = l := by
  intro l
  induction l with
  | nil => intro _; rfl
  | cons a t ih =>
    intro h
    rw [List.all_cons, Bool.and_eq_true] at h
    rw [List.takeWhile, h.1, ih h.2]

theorem dropWhile_nil_of_all {p : Char → Bool} : ∀ {l : List Char},
    l.all p = true → l.dropWhile p = [] := by
  intro l
  induction l with
  | nil => intro _; rfl
  | cons a t ih =>
    intro h
    rw [List.all_cons, Bool.and_eq_true] at h
    rw [List.dropWhile, h.1]
    exact ih h.2

theorem dropWhile_head_not {p : Char → Bool} : ∀ {l : List Char},
    l.dropWhile p = [] ∨ ∃ x, (l.dropWhile p).head? = some x ∧ p x = false := by
  intro l
  induction l with
  | nil => exact Or.inl rfl
  | cons a t ih =>
    rw [List.dropWhile]
    cases hp : p a with
    | true => exact ih
    | false => exact Or.inr ⟨a, rfl, hp⟩

/-! ## Lemmas about `getScheme` and `queryCut` -/

theorem schemeScan_parts : ∀ {l pre post : List Char},
    schemeScan l = some (pre, post) → l = pre ++ ':' :: post := by
  intro l
  induction l with
  | nil => intro pre post h; cases h
  | cons c t ih =>
    intro pre post h
    simp only [schemeScan] at h
    by_cases hc : c = ':'
    · rw [if_pos hc] at h
      cases h
      rw [hc]
      rfl
    · rw [if_neg hc] at h
      cases hsc : schemeCharB c with
      | false => rw [hsc] at h; rw [if_neg (by simp)] at h; cases h
      | true =>
        rw [hsc, if_pos rfl] at h
        cases hrec : schemeScan t with
        | none => rw [hrec] at h; cases h
        | some pr =>
          rw [hrec] at h
          cases h
          rw [List.cons_append]
          exact congrArg (c :: ·) (ih hrec)

theorem getScheme_shape {l sch rest : List Char}
    (h : getScheme l = some (sch, rest)) :
    (sch = [] ∧ rest = l) ∨ l = sch ++ ':' :: rest := by
  cases l with
  | nil => simp only [getScheme] at h; cases h; exact Or.inl ⟨rfl, rfl⟩
  | cons c t =>
    simp only [getScheme] at h
    by_cases hc : c = ':'
    · rw [if_pos hc] at h; cases h
    · rw [if_neg hc] at h
      cases ha : alphaB c with
      | false =>
        rw [ha] at h
        rw [if_neg (by simp)] at h
        cases h
        exact Or.inl ⟨rfl, rfl⟩
      | true =>
        rw [ha, if_pos rfl] at h
        cases hsc : schemeScan t with
        | none => rw [hsc] at h; cases h; exact Or.inl ⟨rfl, rfl⟩
        | some pr =>
          rw [hsc] at h
          cases h
          rw [List.cons_append]
          exact Or.inr (congrArg (c :: ·) (schemeScan_parts hsc))

theorem getScheme_http (r : List Char) :
    getScheme ("http".toList ++ ':' :: r) = some ("http".toList, r) := rfl

theorem getScheme_https (r : List Char) :
    getScheme ("https".toList ++ ':' :: r) = some ("https".toList, r) := rfl

theorem queryCut_all {p : Char → Bool} {rest : List Char} (h : rest.all p = true) :
    (queryCut rest).1.all p = true ∧ (queryCut rest).2.2.all p = true := by
  unfold queryCut
  by_cases hc : rest.getLast? = some '?' ∧ ¬ rest.dropLast.any (fun c => c = '?')
  · rw [if_pos hc]
    exact ⟨dropLast_all h, rfl⟩
  · rw [if_neg hc]
    exact cutFirst_all h

theorem queryCut_force_rq {rest : List Char}
    (h : (queryCut rest).2.1 = true) : (queryCut rest).2.2 = [] := by
  unfold queryCut at *
  by_cases hc : rest.getLast? = some '?' ∧ ¬ rest.dropLast.any (fun c => c = '?')
  · rw [if_pos hc]
  · rw [if_neg hc] at h
    cases h

theorem queryCut_no_query {core : List Char} (h : ('?' : Char) ∉ core) :
    queryCut core = (core, false, []) := by
  unfold queryCut
  rw [if_neg, cutFirst_of_not_mem h]
  rintro ⟨h1, -⟩
  obtain ⟨l', hl'⟩ := List.getLast?_eq_some_iff.mp h1
  exact h (by rw [hl']; exact List.mem_append_right _ (List.mem_singleton_self _))

theorem queryCut_force_eq {core : List Char} (h : ('?' : Char) ∉ core) :
    queryCut (core ++ ['?']) = (core, true, []) := by
  have hcond : (core ++ ['?']).getLast? = some '?' ∧
      ¬ (core ++ ['?']).dropLast.any (fun c => c = '?') := by
    refine ⟨List.getLast?_concat _, ?_⟩
    rw [List.dropLast_concat]
    intro hany
    rw [List.any_eq_true] at hany
    obtain ⟨x, hx, hxq⟩ := hany
    simp only [decide_eq_true_eq] at hxq
    exact h (hxq ▸ hx)
  unfold queryCut
  rw [if_pos hcond, List.dropLast_concat]

theorem parseCore_elim {scheme restQ opq host path : List Char} {om : Bool}
    (h : parseCore scheme restQ = some (opq, host, path, om)) :
    (restQ.head? = some '/' ∧ restQ.tail.head? = some '/' ∧
      opq = [] ∧ host = restQ.tail.tail.takeWhile (fun c => c ≠ '/') ∧
      path = restQ.tail.tail.dropWhile (fun c => c ≠ '/') ∧ om = false ∧
      host.all hostCharB = true ∧ path.all pathCharB = true) ∨
    (restQ.head? = some '/' ∧ restQ.tail.head? ≠ some '/' ∧
      opq = [] ∧ host = [] ∧ path = restQ ∧ om = !scheme.isEmpty ∧
      path.all pathCharB = true) ∨
    (restQ.head? ≠ some '/' ∧ scheme = [] ∧
      opq = [] ∧ host = [] ∧ path = restQ ∧ om = false ∧
      path.all pathCharB = true) ∨
    (restQ.head? ≠ some '/' ∧ scheme ≠ [] ∧
      opq = restQ ∧ host = [] ∧ path = [] ∧ om = false ∧
      opq.all opaqCharB = true) := by
  unfold parseCore at h
  by_cases h1 : restQ.head? = some '/'
  · rw [if_pos h1] at h
    by_cases h2 : restQ.tail.head? = some '/'
    · rw [if_pos h2] at h
      cases hv : (restQ.tail.tail.takeWhile (fun c => c ≠ '/')).all hostCharB &&
          (restQ.tail.tail.dropWhile (fun c => c ≠ '/')).all pathCharB with
      | false => rw [hv] at h; simp at h
      | true =>
        rw [hv] at h
        rw [if_pos rfl] at h
        rw [Bool.and_eq_true] at hv
        cases h
        exact Or.inl ⟨h1, h2, rfl, rfl, rfl, rfl, hv.1, hv.2⟩
    · rw [if_neg h2] at h
      cases hv : restQ.all pathCharB with
      | false => rw [hv] at h; simp at h
      | true =>
        rw [hv, if_pos rfl] at h
        cases h
        exact Or.inr (Or.inl ⟨h1, h2, rfl, rfl, rfl, rfl, hv⟩)
  · rw [if_neg h1] at h
    cases hs : scheme.isEmpty with
    | true =>
      rw [hs, if_pos rfl] at h
      cases hv : restQ.all pathCharB with
      | false => rw [hv] at h; simp at h
      | true =>
        rw [hv, if_pos rfl] at h
        cases h
        exact Or.inr (Or.inr (Or.inl
          ⟨h1, List.isEmpty_iff.mp hs, rfl, rfl, rfl, rfl, hv⟩))
    | false =>
      rw [hs, if_neg (by simp)] at h
      cases hv : restQ.all opaqCharB with
      | false => rw [hv] at h; simp at h
      | true =>
        rw [hv, if_pos rfl] at h
        cases h
        refine Or.inr (Or.inr (Or.inr ⟨h1, ?_, rfl, rfl, rfl, rfl, hv⟩))
        intro he
        rw [he] at hs
        cases hs

theorem parseL_elim {s : List Char} {u : GoURL} (h : parseL s = some u) :
    ∃ schemeText rest,
      (cutFirst '#' s).1.any ctlB = false ∧
      (cutFirst '#' s).2.all fragCharB = true ∧
      getScheme (cutFirst '#' s).1 = some (schemeText, rest) ∧
      ∃ opq host path om,
        parseCore (schemeText.map lowerChar) (queryCut rest).1 =
          some (opq, host, path, om) ∧
        u = ⟨schemeText.map lowerChar, opq, none, host, path, om,
             (queryCut rest).2.1, (queryCut rest).2.2, (cutFirst '#' s).2⟩ := by
  unfold parseL at h
  cases h1 : (cutFirst '#' s).1.any ctlB with
  | true => rw [h1, if_pos rfl] at h; cases h
  | false =>
    rw [h1, if_neg (by simp)] at h
    cases h2 : (cutFirst '#' s).2.all fragCharB with
    | false => rw [h2, if_pos (by simp)] at h; cases h
    | true =>
      rw [h2, if_neg (by simp)] at h
      cases hg : getScheme (cutFirst '#' s).1 with
      | none => rw [hg] at h; cases h
      | some pr =>
        obtain ⟨schemeText, rest⟩ := pr
        simp only [hg] at h
        cases hc : parseCore (schemeText.map lowerChar) (queryCut rest).1 with
        | none => rw [hc] at h; simp at h
        | some q =>
          obtain ⟨opq, host, path, om⟩ := q
          simp only [hc] at h
          cases h
          refine ⟨schemeText, rest, ?_, ?_, ?_, opq, host, path, om, ?_, rfl⟩
          · simp [h1]
          · simp [h2]
          · simp [hg]
          · simp [hc]

theorem parseL_WF0 {s : List Char} {u : GoURL} (h : parseL s = some u) :
    CharsOK u ∧ StructWF u := by
  obtain ⟨schemeText, rest, h1, h2, hg, opq, host, path, om, hc, hu⟩ := parseL_elim h
  have hbody : ((cutFirst '#' s).1).all (fun c => !(c == '#') && !ctlB c) = true := by
    rw [List.all_eq_true]
    intro x hx
    have hx1 : x ≠ '#' := fun hh => cutFirst_fst_not_mem (hh ▸ hx)
    have hx2 : ctlB x = false := by
      rw [List.any_eq_false] at h1
      simpa using h1 x hx
    simp [hx1, hx2]
  have hrest : rest.all (fun c => !(c == '#') && !ctlB c) = true := by
    rcases getScheme_shape hg with ⟨-, hr⟩ | hr
    · rw [hr]; exact hbody
    · rw [hr, List.all_append, List.all_cons, Bool.and_eq_true, Bool.and_eq_true]
        at hbody
      exact hbody.2.2
  have hrq : (queryCut rest).2.2.all (fun c => !(c == '#') && !ctlB c) = true :=
    (queryCut_all hrest).2
  subst hu
  rcases parseCore_elim hc with
      ⟨ha1, ha2, ho, hh, hp, hom, hva, hvp⟩ |
      ⟨ha1, ha2, ho, hh, hp, hom, hvp⟩ |
      ⟨ha1, hsch, ho, hh, hp, hom, hvp⟩ |
      ⟨ha1, hsch, ho, hh, hp, hom, hvo⟩
  · subst ho hom hh hp
    refine ⟨⟨rfl, hva, hvp, hrq, h2⟩, rfl, by simp, ?_, ?_, ?_, ?_⟩
    · intro habs; exact absurd rfl habs
    · intro habs; exact absurd habs (by simp)
    · intro hne
      rcases @dropWhile_head_not (fun c => decide (c ≠ '/'))
          ((queryCut rest).1.tail.tail) with hd | ⟨x, hx1, hx2⟩
      · exact Or.inl hd
      · simp only [decide_eq_false_iff_not, not_not] at hx2
        exact Or.inr (hx2 ▸ hx1)
    · exact queryCut_force_rq
  · subst ho hh hp hom
    refine ⟨⟨rfl, rfl, hvp, hrq, h2⟩, rfl, by simp, ?_, ?_, ?_, ?_⟩
    · intro habs; exact absurd rfl habs
    · intro hom2
      exact ⟨rfl, rfl, ha1, ha2⟩
    · intro habs; exact absurd rfl habs
    · exact queryCut_force_rq
  · subst ho hh hp hom
    refine ⟨⟨rfl, rfl, hvp, hrq, h2⟩, rfl, by simp, ?_, ?_, ?_, ?_⟩
    · intro habs; exact absurd rfl habs
    · intro habs; exact absurd habs (by simp)
    · intro habs; exact absurd rfl habs
    · exact queryCut_force_rq
  · subst ho hh hp hom
    refine ⟨⟨hvo, rfl, rfl, hrq, h2⟩, rfl, ?_, ?_, ?_, ?_, ?_⟩
    · cases hq : (queryCut rest).1 with
      | nil => simp
      | cons a t =>
        rw [hq] at ha1
        simpa using ha1
    · intro hne
      exact ⟨rfl, rfl, rfl⟩
    · intro habs; exact absurd habs (by simp)
    · intro habs; exact absurd rfl habs
    · exact queryCut_force_rq

theorem adjustScheme_id {u : GoURL}
    (h : u.scheme = "http".toList ∨ u.scheme = "https".toList) :
    adjustScheme u = u := by
  unfold adjustScheme
  rw [if_neg]
  rcases h with h | h <;> simp [h]

theorem WF_adjust {u : GoURL} (hc : CharsOK u) (hs : StructWF u) :
    WF (adjustScheme u) := by
  unfold adjustScheme
  by_cases h : u.scheme ≠ "http".toList ∧ u.scheme ≠ "https".toList
  · rw [if_pos h]
    exact ⟨hc, hs, Or.inr rfl⟩
  · rw [if_neg h]
    refine ⟨hc, hs, ?_⟩
    by_cases h1 : u.scheme = "http".toList
    · exact Or.inl h1
    · by_cases h2 : u.scheme = "https".toList
      · exact Or.inr h2
      · exact absurd ⟨h1, h2⟩ h

theorem lowerChar_fix {S : List Char}
    (hS : S = "http".toList ∨ S = "https".toList) : S.map lowerChar = S := by
  rcases hS with h | h <;> rw [h] <;> rfl

theorem getScheme_fix {S : List Char}
    (hS : S = "http".toList ∨ S = "https".toList) (r : List Char) :
    getScheme (S ++ ':' :: r) = some (S, r) := by
  rcases hS with h | h <;> rw [h]
  · exact getScheme_http r
  · exact getScheme_https r

theorem scheme_chars {S : List Char}
    (hS : S = "http".toList ∨ S = "https".toList) :
    ∀ x ∈ S, ctlB x = false ∧ x ≠ '#' ∧ x ≠ '?' := by
  rcases hS with h | h <;> rw [h] <;> decide

theorem queryCut_with_query {core rq : List Char} (h : ('?' : Char) ∉ core)
    (hrq : rq ≠ []) : queryCut (core ++ '?' :: rq) = (core, false, rq) := by
  unfold queryCut
  rw [if_neg, cutFirst_append rq h]
  rintro ⟨h1, h2⟩
  apply h2
  rw [List.dropLast_append_of_ne_nil _ (by simp)]
  have hne : '?' :: rq ≠ [] := by simp
  have : ('?' : Char) ∈ ('?' :: rq).dropLast := by
    cases rq with
    | nil => exact absurd rfl hrq
    | cons b t =>
      rw [List.dropLast_cons_of_ne_nil (by simp)]
      exact List.mem_cons_self _ _
  rw [List.any_eq_true]
  exact ⟨'?', List.mem_append_right _ this, by simp⟩

/-! ## The reparse lemma: `parseL` applied to a serialized URL -/

theorem parse_build (S core rq frag : List Char) (fq : Bool)
    (hS : S = "http".toList ∨ S = "https".toList)
    (hcore : ∀ x ∈ core, ctlB x = false ∧ x ≠ '#' ∧ x ≠ '?')
    (hrq : ∀ x ∈ rq, ctlB x = false ∧ x ≠ '#')
    (hfq : fq = true → rq = [])
    (hfrag : frag.all fragCharB = true) :
    parseL (S ++ ':' :: (core ++ (if fq || !rq.isEmpty then '?' :: rq else []) ++
        (if frag.isEmpty then [] else '#' :: frag))) =
      (parseCore S core).map (fun r =>
        ⟨S, r.1, none, r.2.1, r.2.2.1, r.2.2.2, fq, rq, frag⟩) := by
  have hQ : ∀ x ∈ (if fq || !rq.isEmpty then '?' :: rq else []),
      ctlB x = false ∧ x ≠ '#' := by
    intro x hx
    by_cases hcond : (fq || !rq.isEmpty) = true
    · rw [if_pos hcond] at hx
      rcases List.mem_cons.mp hx with h | h
      · subst h; exact ⟨by decide, by decide⟩
      · exact hrq x h
    · rw [if_neg hcond] at hx; cases hx
  have hpre : ∀ x ∈ S ++ ':' :: (core ++ (if fq || !rq.isEmpty then '?' :: rq else [])),
      ctlB x = false ∧ x ≠ '#' := by
    intro x hx
    rcases List.mem_append.mp hx with h | h
    · obtain ⟨h1, h2, -⟩ := scheme_chars hS x h
      exact ⟨h1, h2⟩
    · rcases List.mem_cons.mp h with h | h
      · subst h; exact ⟨by decide, by decide⟩
      · rcases List.mem_append.mp h with h | h
        · obtain ⟨h1, h2, -⟩ := hcore x h
          exact ⟨h1, h2⟩
        · exact hQ x h
  have hnohash : ('#' : Char) ∉
      S ++ ':' :: (core ++ (if fq || !rq.isEmpty then '?' :: rq else [])) :=
    fun hmem => (hpre '#' hmem).2 rfl
  have hsplit : S ++ ':' :: (core ++ (if fq || !rq.isEmpty then '?' :: rq else []) ++
      (if frag.isEmpty then [] else '#' :: frag)) =
      (S ++ ':' :: (core ++ (if fq || !rq.isEmpty then '?' :: rq else []))) ++
        (if frag.isEmpty then [] else '#' :: frag) := by
    simp [List.append_assoc]
  have hcut : cutFirst '#' (S ++ ':' :: (core ++
      (if fq || !rq.isEmpty then '?' :: rq else []) ++
      (if frag.isEmpty then [] else '#' :: frag))) =
      (S ++ ':' :: (core ++ (if fq || !rq.isEmpty then '?' :: rq else [])), frag) := by
    rw [hsplit]
    by_cases hf : frag.isEmpty
    · have hfnil : frag = [] := List.isEmpty_iff.mp hf
      rw [if_pos hf, List.append_nil, cutFirst_of_not_mem hnohash, hfnil]
    · rw [if_neg hf]
      exact cutFirst_append frag hnohash
  have hctl : ((S ++ ':' :: (core ++
      (if fq || !rq.isEmpty then '?' :: rq else []))).any ctlB) = false := by
    rw [List.any_eq_false]
    intro x hx
    rw [(hpre x hx).1]
    simp
  have hno : ('?' : Char) ∉ core := fun hmem => (hcore '?' hmem).2.2 rfl
  have hquery : queryCut (core ++ (if fq || !rq.isEmpty then '?' :: rq else [])) =
      (core, fq, rq) := by
    cases fq with
    | true =>
      have hrq0 : rq = [] := hfq rfl
      subst hrq0
      simpa using queryCut_force_eq hno
    | false =>
      cases hrqe : rq with
      | nil => simpa using queryCut_no_query hno
      | cons b t =>
        have : (false || !(b :: t).isEmpty) = true := by simp
        rw [this, if_pos rfl]
        exact queryCut_with_query hno (by simp)
  unfold parseL
  simp only [hcut]
  rw [hctl, if_neg (by simp), if_neg (by simp [hfrag])]
  simp only [getScheme_fix hS, lowerChar_fix hS, hquery]
  cases hpc : parseCore S core with
  | none => rfl
  | some q =>
    obtain ⟨o, h2, p2, om2⟩ := q
    rfl

/-! ## Shape lemmas for `toStringL` -/

theorem toStringL_scheme {u : GoURL} (h : u.scheme.isEmpty = false) :
    toStringL u = u.scheme ++ ':' ::
      ((if !u.opaq.isEmpty then u.opaq
        else authPart u ++ slashFix u ++ dotSlashFix u ++ u.path) ++
       (if u.forceQuery || !u.rawQuery.isEmpty then '?' :: u.rawQuery else []) ++
       (if u.fragment.isEmpty then [] else '#' :: u.fragment)) := by
  unfold toStringL
  rw [if_neg (by simp [h])]
  simp [List.append_assoc]

theorem dotSlashFix_nil {u : GoURL} (h : u.scheme.isEmpty = false) :
    dotSlashFix u = [] := by
  unfold dotSlashFix
  rw [if_neg]
  rintro ⟨h1, -⟩
  rw [h] at h1
  cases h1

theorem authPart_omit {u : GoURL} (hom : u.omitHost = true) (hh : u.host = [])
    (hu : u.user = none) : authPart u = [] := by
  unfold authPart
  by_cases h1 : (u.scheme.isEmpty && u.host.isEmpty && u.user.isNone) = true
  · rw [if_pos h1]
  · rw [if_neg h1, if_pos (by simp [hom, hh, hu])]

theorem authPart_host {u : GoURL} (hh : u.host ≠ []) (hom : u.omitHost = false)
    (hu : u.user = none) : authPart u = '/' :: '/' :: u.host := by
  unfold authPart
  rw [if_neg (by simp [hu, hh]), if_neg (by simp [hom]),
    if_pos (by simp [hh]), hu]
  rfl

theorem authPart_both_empty {u : GoURL} (hh : u.host = []) (hp : u.path = [])
    (hu : u.user = none) : authPart u = [] := by
  unfold authPart
  by_cases h1 : (u.scheme.isEmpty && u.host.isEmpty && u.user.isNone) = true
  · rw [if_pos h1]
  · rw [if_neg h1]
    by_cases h2 : (u.omitHost && u.host.isEmpty && u.user.isNone) = true
    · rw [if_pos h2]
    · rw [if_neg h2, if_neg (by simp [hh, hp, hu]), hu, hh]
      rfl

theorem authPart_slashes {u : GoURL} (hh : u.host = []) (hp : u.path ≠ [])
    (hom : u.omitHost = false) (hu : u.user = none)
    (hs : u.scheme.isEmpty = false) : authPart u = ['/', '/'] := by
  unfold authPart
  rw [if_neg (by simp [hs]), if_neg (by simp [hom]), if_pos (by simp [hp]), hu, hh]
  rfl

theorem slashFix_nil_of_path_nil {u : GoURL} (hp : u.path = []) :
    slashFix u = [] := by
  unfold slashFix
  rw [if_neg]
  rintro ⟨h1, -⟩
  exact h1 (by simp [hp])

theorem slashFix_nil_of_head {u : GoURL} (hp : u.path.head? = some '/') :
    slashFix u = [] := by
  unfold slashFix
  rw [if_neg]
  rintro ⟨-, h2, -⟩
  exact h2 hp

theorem slashFix_nil_of_host_nil {u : GoURL} (hh : u.host = []) :
    slashFix u = [] := by
  unfold slashFix
  rw [if_neg]
  rintro ⟨-, -, h3⟩
  exact h3 (by simp [hh])

theorem GoURL_ext {a b : GoURL} (h1 : a.scheme = b.scheme) (h2 : a.opaq = b.opaq)
    (h3 : a.user = b.user) (h4 : a.host = b.host) (h5 : a.path = b.path)
    (h6 : a.omitHost = b.omitHost) (h7 : a.forceQuery = b.forceQuery)
    (h8 : a.rawQuery = b.rawQuery) (h9 : a.fragment = b.fragment) : a = b := by
  cases a
  cases b
  simp only [GoURL.mk.injEq]
  exact ⟨h1, h2, h3, h4, h5, h6, h7, h8, h9⟩

/-! ## The round trip: parsing a serialized well-formed URL -/

theorem parse_toString {u : GoURL} (h : WF u) :
    parseL (toStringL u) = some (canon u) := by
  obtain ⟨⟨hco, hch, hcp, hcq, hcf⟩, ⟨hsu, hsoh, hso, hsom, hshp, hsfr⟩, hS⟩ := h
  have hSne : u.scheme.isEmpty = false := by
    rcases hS with h' | h' <;> rw [h'] <;> rfl
  have hrqf : ∀ x ∈ u.rawQuery, ctlB x = false ∧ x ≠ '#' := fun x hx =>
    qryChar_facts (List.all_eq_true.mp hcq x hx)
  have hpathf : ∀ x ∈ u.path, ctlB x = false ∧ x ≠ '#' ∧ x ≠ '?' := fun x hx => by
    obtain ⟨a1, a2, a3⟩ := pathChar_facts (List.all_eq_true.mp hcp x hx)
    exact ⟨a1, a2, a3⟩
  rw [toStringL_scheme hSne]
  by_cases hopq : u.opaq = []
  case neg =>
    rw [if_pos (by simp [hopq])]
    have hcoreSafe : ∀ x ∈ u.opaq, ctlB x = false ∧ x ≠ '#' ∧ x ≠ '?' := fun x hx =>
      opaqChar_facts (List.all_eq_true.mp hco x hx)
    rw [parse_build u.scheme u.opaq u.rawQuery u.fragment u.forceQuery hS hcoreSafe
      hrqf hsfr hcf]
    have hpc : parseCore u.scheme u.opaq = some (u.opaq, [], [], false) := by
      unfold parseCore
      rw [if_neg hsoh, if_neg (by simp [hSne]), if_pos hco]
    rw [hpc]
    have hcanon : canon u = u := by
      unfold canon
      rw [if_neg]
      rintro ⟨h1, -⟩
      exact hopq h1
    rw [hcanon]
    obtain ⟨hh1, hh2, hh3⟩ := hso hopq
    exact congrArg some (GoURL_ext rfl rfl hsu.symm hh1.symm hh2.symm hh3.symm
      rfl rfl rfl)
  case pos =>
    rw [if_neg (by simp [hopq]), dotSlashFix_nil hSne]
    by_cases hom : u.omitHost = true
    · obtain ⟨-, hh, hph, hpt⟩ := hsom hom
      rw [authPart_omit hom hh hsu, slashFix_nil_of_head hph]
      simp only [List.nil_append]
      rw [parse_build u.scheme u.path u.rawQuery u.fragment u.forceQuery hS hpathf
        hrqf hsfr hcf]
      have hpc : parseCore u.scheme u.path = some ([], [], u.path, true) := by
        unfold parseCore
        rw [if_pos hph, if_neg hpt, if_pos hcp, hSne]
        rfl
      rw [hpc]
      have hcanon : canon u = u := by
        unfold canon
        rw [if_neg]
        rintro ⟨-, -, h3, -⟩
        rw [hom] at h3
        cases h3
      rw [hcanon]
      exact congrArg some (GoURL_ext rfl hopq.symm hsu.symm hh.symm rfl hom.symm
        rfl rfl rfl)
    · have hom' : u.omitHost = false := by simpa using hom
      by_cases hhost : u.host = []
      · by_cases hpath : u.path = []
        · have hser : u.scheme ++ ':' ::
              ((authPart u ++ slashFix u ++ [] ++ u.path) ++
               (if u.forceQuery || !u.rawQuery.isEmpty then '?' :: u.rawQuery else []) ++
               (if u.fragment.isEmpty then [] else '#' :: u.fragment)) =
              u.scheme ++ ':' ::
              (([] : List Char) ++
               (if u.forceQuery || !u.rawQuery.isEmpty then '?' :: u.rawQuery else []) ++
               (if u.fragment.isEmpty then [] else '#' :: u.fragment)) := by
            rw [authPart_both_empty hhost hpath hsu, slashFix_nil_of_path_nil hpath,
              hpath]
            rfl
          rw [hser]
          rw [parse_build u.scheme [] u.rawQuery u.fragment u.forceQuery hS
            (by intro x hx; cases hx) hrqf hsfr hcf]
          have hpc : parseCore u.scheme [] = some ([], [], [], false) := by
            unfold parseCore
            rw [if_neg (by simp), if_neg (by simp [hSne]),
              if_pos (show (([] : List Char).all opaqCharB) = true from rfl)]
          rw [hpc]
          have hcanon : canon u = u := by
            unfold canon
            rw [if_neg]
            rintro ⟨-, -, -, h4, -⟩
            exact h4 hpath
          rw [hcanon]
          exact congrArg some (GoURL_ext rfl hopq.symm hsu.symm hhost.symm
            hpath.symm hom'.symm rfl rfl rfl)
        · have hser : u.scheme ++ ':' ::
              ((authPart u ++ slashFix u ++ [] ++ u.path) ++
               (if u.forceQuery || !u.rawQuery.isEmpty then '?' :: u.rawQuery else []) ++
               (if u.fragment.isEmpty then [] else '#' :: u.fragment)) =
              u.scheme ++ ':' ::
              (('/' :: '/' :: u.path) ++
               (if u.forceQuery || !u.rawQuery.isEmpty then '?' :: u.rawQuery else []) ++
               (if u.fragment.isEmpty then [] else '#' :: u.fragment)) := by
            rw [authPart_slashes hhost hpath hom' hsu hSne,
              slashFix_nil_of_host_nil hhost]
            rfl
          rw [hser]
          have hcoreSafe : ∀ x ∈ ('/' :: '/' :: u.path),
              ctlB x = false ∧ x ≠ '#' ∧ x ≠ '?' := by
            intro x hx
            rcases List.mem_cons.mp hx with h1 | h1
            · subst h1; exact ⟨by decide, by decide, by decide⟩
            rcases List.mem_cons.mp h1 with h2 | h2
            · subst h2; exact ⟨by decide, by decide, by decide⟩
            · exact hpathf x h2
          rw [parse_build u.scheme ('/' :: '/' :: u.path) u.rawQuery u.fragment
            u.forceQuery hS hcoreSafe hrqf hsfr hcf]
          by_cases hhead : u.path.head? = some '/'
          · have htake : u.path.takeWhile (fun c => decide (c ≠ '/')) = [] :=
              takeWhile_nil_of_head hhead (by simp)
            have hdrop : u.path.dropWhile (fun c => decide (c ≠ '/')) = u.path :=
              dropWhile_self_of_head hhead (by simp)
            have hpc : parseCore u.scheme ('/' :: '/' :: u.path) =
                some ([], [], u.path, false) := by
              unfold parseCore
              rw [if_pos (show (('/' :: '/' :: u.path : List Char).head? = some '/')
                    from rfl),
                if_pos (show (('/' :: '/' :: u.path : List Char).tail.head? = some '/')
                  from rfl)]
              simp only [List.tail_cons]
              rw [htake, hdrop, if_pos (by simp [hcp])]
            rw [hpc]
            have hcanon : canon u = u := by
              unfold canon
              rw [if_neg]
              rintro ⟨-, -, -, -, h5⟩
              exact h5 hhead
            rw [hcanon]
            exact congrArg some (GoURL_ext rfl hopq.symm hsu.symm hhost.symm rfl
              hom'.symm rfl rfl rfl)
          · have hauth : (u.path.takeWhile (fun c => decide (c ≠ '/'))).all
                hostCharB = true := by
              rw [List.all_eq_true]
              intro x hx
              have hxp : x ∈ u.path := (List.takeWhile_sublist _).subset hx
              have hxq : x ≠ '/' := by
                have := List.mem_takeWhile_imp hx
                simpa using this
              exact pathChar_to_host (List.all_eq_true.mp hcp x hxp) hxq
            have hdrop : (u.path.dropWhile (fun c => decide (c ≠ '/'))).all
                pathCharB = true := all_dropWhile hcp
            have hpc : parseCore u.scheme ('/' :: '/' :: u.path) =
                some ([], u.path.takeWhile (fun c => decide (c ≠ '/')),
                  u.path.dropWhile (fun c => decide (c ≠ '/')), false) := by
              unfold parseCore
              rw [if_pos (show (('/' :: '/' :: u.path : List Char).head? = some '/')
                    from rfl),
                if_pos (show (('/' :: '/' :: u.path : List Char).tail.head? = some '/')
                  from rfl)]
              simp only [List.tail_cons]
              rw [if_pos (by rw [hauth, hdrop]; rfl)]
            rw [hpc]
            have hcanon : canon u = { u with
                host := u.path.takeWhile (fun c => c ≠ '/'),
                path := u.path.dropWhile (fun c => c ≠ '/') } := by
              unfold canon
              rw [if_pos ⟨hopq, hhost, hom', hpath, hhead⟩]
            rw [hcanon]
            exact congrArg some (GoURL_ext rfl hopq.symm hsu.symm rfl rfl
              hom'.symm rfl rfl rfl)
      · have hslfix : slashFix u = [] := by
          rcases hshp hhost with hd | hd
          · exact slashFix_nil_of_path_nil hd
          · exact slashFix_nil_of_head hd
        have hser : u.scheme ++ ':' ::
            ((authPart u ++ slashFix u ++ [] ++ u.path) ++
             (if u.forceQuery || !u.rawQuery.isEmpty then '?' :: u.rawQuery else []) ++
             (if u.fragment.isEmpty then [] else '#' :: u.fragment)) =
            u.scheme ++ ':' ::
            (('/' :: '/' :: (u.host ++ u.path)) ++
             (if u.forceQuery || !u.rawQuery.isEmpty then '?' :: u.rawQuery else []) ++
             (if u.fragment.isEmpty then [] else '#' :: u.fragment)) := by
          rw [authPart_host hhost hom' hsu, hslfix]
          simp [List.append_assoc]
        rw [hser]
        have hcoreSafe : ∀ x ∈ ('/' :: '/' :: (u.host ++ u.path)),
            ctlB x = false ∧ x ≠ '#' ∧ x ≠ '?' := by
          intro x hx
          rcases List.mem_cons.mp hx with h1 | h1
          · subst h1; exact ⟨by decide, by decide, by decide⟩
          rcases List.mem_cons.mp h1 with h2 | h2
          · subst h2; exact ⟨by decide, by decide, by decide⟩
          rcases List.mem_append.mp h2 with h3 | h3
          · obtain ⟨a1, a2, a3, -⟩ := hostChar_facts (List.all_eq_true.mp hch x h3)
            exact ⟨a1, a2, a3⟩
          · exact hpathf x h3
        rw [parse_build u.scheme ('/' :: '/' :: (u.host ++ u.path)) u.rawQuery
          u.fragment u.forceQuery hS hcoreSafe hrqf hsfr hcf]
        have hhostall : u.host.all (fun c => decide (c ≠ '/')) = true := by
          rw [List.all_eq_true]
          intro x hx
          have := (hostChar_facts (List.all_eq_true.mp hch x hx)).2.2.2
          simpa using this
        have htake : (u.host ++ u.path).takeWhile (fun c => decide (c ≠ '/')) =
            u.host := by
          rw [takeWhile_append_all u.path hhostall]
          rcases hshp hhost with hd | hd
          · rw [hd]; simp
          · rw [takeWhile_nil_of_head hd (by simp)]
            simp
        have hdrop : (u.host ++ u.path).dropWhile (fun c => decide (c ≠ '/')) =
            u.path := by
          rw [dropWhile_append_all u.path hhostall]
          rcases hshp hhost with hd | hd
          · rw [hd]
            rfl
          · exact dropWhile_self_of_head hd (by simp)
        have hpc : parseCore u.scheme ('/' :: '/' :: (u.host ++ u.path)) =
            some ([], u.host, u.path, false) := by
          unfold parseCore
          rw [if_pos (show (('/' :: '/' :: (u.host ++ u.path) : List Char).head? =
                some '/') from rfl),
            if_pos (show (('/' :: '/' :: (u.host ++ u.path) : List Char).tail.head? =
              some '/') from rfl)]
          simp only [List.tail_cons]
          rw [htake, hdrop, if_pos (by simp [hch, hcp])]
        rw [hpc]
        have hcanon : canon u = u := by
          unfold canon
          rw [if_neg]
          rintro ⟨-, h2c, -⟩
          exact hhost h2c
        rw [hcanon]
        exact congrArg some (GoURL_ext rfl hopq.symm hsu.symm rfl rfl hom'.symm
          rfl rfl rfl)

theorem canon_scheme (u : GoURL) : (canon u).scheme = u.scheme := by
  unfold canon
  split <;> rfl

theorem canon_opaq (u : GoURL) : (canon u).opaq = u.opaq := by
  unfold canon
  split <;> rfl

/-- Re-serializing after the `canon` shift gives back the same string: the
host and the remaining path re-concatenate to the original rootless
path. -/
theorem toStringL_canon {u : GoURL} (h : WF u) :
    toStringL (canon u) = toStringL u := by
  obtain ⟨⟨hco, hch, hcp, hcq, hcf⟩, ⟨hsu, hsoh, hso, hsom, hshp, hsfr⟩, hS⟩ := h
  have hSne : u.scheme.isEmpty = false := by
    rcases hS with h' | h' <;> rw [h'] <;> rfl
  unfold canon
  by_cases hcond : u.opaq = [] ∧ u.host = [] ∧ u.omitHost = false ∧ u.path ≠ [] ∧
      u.path.head? ≠ some '/'
  · rw [if_pos hcond]
    obtain ⟨hopq, hhost, hom', hpath, hhead⟩ := hcond
    have hane : u.path.takeWhile (fun c => c ≠ '/') ≠ [] := by
      cases hp : u.path with
      | nil => exact absurd hp hpath
      | cons c t =>
        have hcne : c ≠ '/' := by
          intro hcc
          rw [hp, hcc] at hhead
          exact hhead rfl
        have hdec : (fun x => decide (x ≠ '/')) c = true := by simpa using hcne
        rw [List.takeWhile_cons, if_pos hdec]
        exact List.cons_ne_nil _ _
    have hbdisj : u.path.dropWhile (fun c => decide (c ≠ '/')) = [] ∨
        (u.path.dropWhile (fun c => decide (c ≠ '/'))).head? = some '/' := by
      rcases @dropWhile_head_not (fun c => decide (c ≠ '/')) u.path with hd | ⟨x, hx1, hx2⟩
      · exact Or.inl hd
      · simp only [decide_eq_false_iff_not, not_not] at hx2
        exact Or.inr (hx2 ▸ hx1)
    rw [toStringL_scheme (show ({ u with
          host := u.path.takeWhile (fun c => c ≠ '/'),
          path := u.path.dropWhile (fun c => c ≠ '/') } : GoURL).scheme.isEmpty =
        false from hSne),
      toStringL_scheme hSne]
    dsimp only
    have hsopq : ¬ ((!u.opaq.isEmpty) = true) := by simp [hopq]
    rw [if_neg hsopq, if_neg hsopq]
    rw [authPart_slashes hhost hpath hom' hsu hSne, slashFix_nil_of_host_nil hhost,
      dotSlashFix_nil hSne]
    have hauthw : authPart { u with
        host := u.path.takeWhile (fun c => c ≠ '/'),
        path := u.path.dropWhile (fun c => c ≠ '/') } =
        '/' :: '/' :: u.path.takeWhile (fun c => c ≠ '/') :=
      authPart_host hane hom' hsu
    rw [hauthw]
    have hslw : slashFix { u with
        host := u.path.takeWhile (fun c => c ≠ '/'),
        path := u.path.dropWhile (fun c => c ≠ '/') } = [] := by
      rcases hbdisj with hd | hd
      · exact slashFix_nil_of_path_nil hd
      · exact slashFix_nil_of_head hd
    rw [hslw]
    have hdsw : dotSlashFix { u with
        host := u.path.takeWhile (fun c => c ≠ '/'),
        path := u.path.dropWhile (fun c => c ≠ '/') } = [] := dotSlashFix_nil hSne
    rw [hdsw]
    have hab : u.path.takeWhile (fun c => decide (c ≠ '/')) ++
        u.path.dropWhile (fun c => decide (c ≠ '/')) = u.path :=
      List.takeWhile_append_dropWhile _ _
    have hcoreEq : ('/' :: '/' :: u.path.takeWhile (fun c => decide (c ≠ '/'))) ++
        [] ++ [] ++ u.path.dropWhile (fun c => decide (c ≠ '/')) =
        (['/', '/'] : List Char) ++ [] ++ [] ++ u.path := by
      rw [show ('/' :: '/' :: u.path.takeWhile (fun c => decide (c ≠ '/'))) ++
          [] ++ [] ++ u.path.dropWhile (fun c => decide (c ≠ '/')) =
          '/' :: '/' :: (u.path.takeWhile (fun c => decide (c ≠ '/')) ++
            u.path.dropWhile (fun c => decide (c ≠ '/'))) from by simp, hab]
      rfl
    rw [hcoreEq]
  · rw [if_neg hcond]

theorem toStringL_host_shape (w : GoURL) (ho : w.opaq = []) (hh : w.host ≠ [])
    (hu : w.user = none) (hom : w.omitHost = false)
    (hs : w.scheme.isEmpty = false) :
    ∃ t, toStringL w = w.scheme ++ ':' :: '/' :: '/' :: t := by
  rw [toStringL_scheme hs, if_neg (by simp [ho]), authPart_host hh hom hu,
    dotSlashFix_nil hs]
  refine ⟨w.host ++ (slashFix w ++ (w.path ++
    ((if w.forceQuery || !w.rawQuery.isEmpty then '?' :: w.rawQuery else []) ++
     (if w.fragment.isEmpty then [] else '#' :: w.fragment)))), ?_⟩
  simp [List.append_assoc]

/-- A string accepted by `parseL` whose URL has scheme `http` or `https`
and that begins with `http://` or `https://` was parsed with exactly that
scheme. -/
theorem scheme_of_prefix {s : List Char} {u : GoURL} (hu : parseL s = some u)
    (hpre : "http://".toList.isPrefixOf s = true ∨
      "https://".toList.isPrefixOf s = true) :
    u.scheme = "http".toList ∨ u.scheme = "https".toList := by
  obtain ⟨schemeText, rest, h1, h2, hg, opq, host, path, om, hc, hu'⟩ := parseL_elim hu
  have husch : u.scheme = schemeText.map lowerChar := by rw [hu']
  rcases hpre with hp | hp
  · left
    obtain ⟨r, hr⟩ := List.isPrefixOf_iff_prefix.mp hp
    have hcut2 : (cutFirst '#' s).1 = "http".toList ++ ':' ::
        ('/' :: '/' :: (cutFirst '#' r).1) := by
      rw [← hr, cutFirst_append_left r (by decide)]
      rfl
    rw [hcut2, getScheme_http] at hg
    have h12 : schemeText = "http".toList := by
      have := Option.some.injEq _ _ ▸ hg
      simp only [Option.some.injEq, Prod.mk.injEq] at hg
      exact hg.1.symm
    rw [husch, h12]
    rfl
  · right
    obtain ⟨r, hr⟩ := List.isPrefixOf_iff_prefix.mp hp
    have hcut2 : (cutFirst '#' s).1 = "https".toList ++ ':' ::
        ('/' :: '/' :: (cutFirst '#' r).1) := by
      rw [← hr, cutFirst_append_left r (by decide)]
      rfl
    rw [hcut2, getScheme_https] at hg
    have h12 : schemeText = "https".toList := by
      simp only [Option.some.injEq, Prod.mk.injEq] at hg
      exact hg.1.symm
    rw [husch, h12]
    rfl

theorem canon_omitHost (u : GoURL) : (canon u).omitHost = u.omitHost := by
  unfold canon
  split <;> rfl

theorem canon_user (u : GoURL) : (canon u).user = u.user := by
  unfold canon
  split <;> rfl

/-! ## Claims C2 (amended) and C6 (amended) -/

/-- C6, amended: on an input that begins with `http://` or `https://` and
parses, `assertProtocol` keeps the scheme (it does not rewrite it to
`https`) and re-serializes the parsed URL; applying it to its own output
returns that output unchanged (idempotence).  The single application need
not return the input itself — see the counterexample with the dangling
`#`. -/
theorem c6_normalization_idempotent (s : List Char) (u : GoURL)
    (hpre : "http://".toList.isPrefixOf s = true ∨
      "https://".toList.isPrefixOf s = true)
    (hu : parseL s = some u) :
    assertProtocolL s = some (toStringL u) ∧
      assertProtocolL (toStringL u) = some (toStringL u) := by
  have hS : u.scheme = "http".toList ∨ u.scheme = "https".toList :=
    scheme_of_prefix hu hpre
  obtain ⟨hc0, hs0⟩ := parseL_WF0 hu
  have hWF : WF u := ⟨hc0, hs0, hS⟩
  have hid : adjustScheme u = u := adjustScheme_id hS
  constructor
  · unfold assertProtocolL
    simp only [hu, hid]
  · unfold assertProtocolL
    simp only [parse_toString hWF]
    have hSc : (canon u).scheme = "http".toList ∨
        (canon u).scheme = "https".toList := by
      rw [canon_scheme]
      exact hS
    rw [adjustScheme_id hSc, toStringL_canon hWF]

theorem c6_witness :
    assertProtocolL "http://example.com".toList =
        some (toStringL ⟨"http".toList, [], none, "example.com".toList, [], false,
          false, [], []⟩) ∧
      assertProtocolL (toStringL ⟨"http".toList, [], none, "example.com".toList,
          [], false, false, [], []⟩) =
        some (toStringL ⟨"http".toList, [], none, "example.com".toList, [], false,
          false, [], []⟩) :=
  c6_normalization_idempotent "http://example.com".toList
    ⟨"http".toList, [], none, "example.com".toList, [], false, false, [], []⟩
    (Or.inl (by decide)) (by decide)

/-- C2, amended: in the part_000 variant — the one with `assertProtocol`
and `isValidURL` — every creation request that responds 200 persists a url
beginning with `http://` or `https://`: `assertProtocol` forces an http(s)
scheme, and `http.Get` inside `isValidURL` can only have succeeded if the
re-parsed URL carries a nonempty host, which makes the serialization start
with `scheme://`.  The main.go variant does not guarantee this — see the
counterexample with `ftp://example.com`. -/
theorem c2_part000_stored_url_scheme_prefixed (v : List Char)
    (net : List Char → Bool) (fuel : Nat) (src : Nat → Option (Fin 64))
    (now : Nat) (store : Store) (pair : SlugURLPair) (st' : Store)
    (h : createHandlerPart000 (some v) net fuel src now store =
      .responds (.okJson pair) st') :
    "http://".toList.isPrefixOf pair.url = true ∨
      "https://".toList.isPrefixOf pair.url = true := by
  unfold createHandlerPart000 at h
  cases hap : assertProtocolL v with
  | none => simp [hap] at h
  | some v' =>
    simp only [hap] at h
    cases hv : isValidURL v' net with
    | false => simp [hv] at h
    | true =>
      simp only [hv, Bool.not_true, Bool.false_eq_true, if_false] at h
      cases hg : generateUniqueSlugGo fuel src (storeLookup store) with
      | error e => simp [hg] at h
      | ok o =>
        cases o with
        | none => simp [hg] at h
        | some slug =>
          simp only [hg, Outcome.responds.injEq, Resp.okJson.injEq] at h
          obtain ⟨hpair, -⟩ := h
          have hurl : pair.url = v' := by rw [← hpair]
          unfold assertProtocolL at hap
          cases hu0 : parseL v with
          | none => rw [hu0] at hap; cases hap
          | some u0 =>
            simp only [hu0, Option.some.injEq] at hap
            have hv' : v' = toStringL (adjustScheme u0) := hap.symm
            obtain ⟨hc0, hs0⟩ := parseL_WF0 hu0
            obtain ⟨hcw, hsw, hSw⟩ := WF_adjust hc0 hs0
            have hparse : parseL v' = some (canon (adjustScheme u0)) := by
              rw [hv']
              exact parse_toString ⟨hcw, hsw, hSw⟩
            unfold isValidURL at hv
            simp only [hparse, Bool.and_eq_true, Bool.or_eq_true, beq_iff_eq]
              at hv
            obtain ⟨⟨hsch, hne⟩, -⟩ := hv
            have hostne : (canon (adjustScheme u0)).host ≠ [] := by
              intro hnil
              rw [hnil] at hne
              simp at hne
            have hopqC : (canon (adjustScheme u0)).opaq = [] := by
              by_cases hwo : (adjustScheme u0).opaq = []
              · rw [canon_opaq]
                exact hwo
              · have hcanid : canon (adjustScheme u0) = adjustScheme u0 := by
                  unfold canon
                  rw [if_neg]
                  rintro ⟨hx, -⟩
                  exact hwo hx
                have hh2 : (adjustScheme u0).host = [] := (hsw.2.2.1 hwo).1
                rw [hcanid] at hostne
                exact absurd hh2 hostne
            have homC : (canon (adjustScheme u0)).omitHost = false := by
              rw [canon_omitHost]
              by_cases hwm : (adjustScheme u0).omitHost = true
              · obtain ⟨-, hh2, -, -⟩ := hsw.2.2.2.1 hwm
                have hcanid : canon (adjustScheme u0) = adjustScheme u0 := by
                  unfold canon
                  rw [if_neg]
                  rintro ⟨-, -, hx, -⟩
                  rw [hwm] at hx
                  cases hx
                rw [hcanid] at hostne
                exact absurd hh2 hostne
              · simpa using hwm
            have huserC : (canon (adjustScheme u0)).user = none := by
              rw [canon_user]
              exact hsw.1
            have hSC : (canon (adjustScheme u0)).scheme = "http".toList ∨
                (canon (adjustScheme u0)).scheme = "https".toList := by
              rw [canon_scheme]
              exact hSw
            have hSCne : (canon (adjustScheme u0)).scheme.isEmpty = false := by
              rcases hSC with hx | hx <;> rw [hx] <;> rfl
            obtain ⟨t, ht⟩ := toStringL_host_shape (canon (adjustScheme u0))
              hopqC hostne huserC homC hSCne
            have hvts : v' = toStringL (canon (adjustScheme u0)) := by
              rw [hv', toStringL_canon ⟨hcw, hsw, hSw⟩]
            rw [hurl, hvts, ht]
            rcases hSC with hx | hx
            · left
              rw [hx, List.isPrefixOf_iff_prefix]
              exact ⟨t, rfl⟩
            · right
              rw [hx, List.isPrefixOf_iff_prefix]
              exact ⟨t, rfl⟩

theorem c2_witness :
    "http://".toList.isPrefixOf "https://example.com".toList = true ∨
      "https://".toList.isPrefixOf "https://example.com".toList = true :=
  c2_part000_stored_url_scheme_prefixed "example.com".toList (fun _ => true) 0
    (fun _ => some 0) 0 []
    ⟨"aaaaa".toList, "https://example.com".toList, retentionSecs⟩
    [⟨"aaaaa".toList, "https://example.com".toList, retentionSecs⟩] (by decide)

end Dlgfy
